import Mathlib

/-!
Merging plugin results into a protoc configuration.

A shallow embedding of `pkg/protoc/protoc_configuration.go`: the source merger
`mergeSources`, the import merger `mergeImports`, the constructor
`newProtocConfiguration` and the two lookups by implementation name, together
with the Go standard-library functions they call (`path.Clean`, `path.Dir`,
`path.Base`, `path.Join`, `strings.Split`, `strings.TrimPrefix`,
`sort.Strings`).

Go strings are modelled as lists of characters.  Every function below only
inspects the characters `/` and `.`, compares strings for equality, or orders
them lexicographically; the code-point order used here agrees with Go's
byte order on UTF-8 text.  A Go `map[string]string` is modelled as an
association list whose keys are pairwise distinct.
-/

/-- A Go string, as the list of its characters. -/
abbrev Str := List Char

/-! ## Go maps -/

/-- A Go `map[string]string`: an association list; a well-formed map has
pairwise distinct keys. -/
abbrev GoMap := List (Str × Str)

namespace GoMap

/-- The lookup `m[k]`, `none` when the key is absent. -/
def read : GoMap → Str → Option Str
  | [], _ => none
  | (k', v') :: m, k => if k' = k then some v' else read m k

/-- The assignment `m[k] = v`: overwrite the entry of an existing key, add an
entry otherwise. -/
def write : GoMap → Str → Str → GoMap
  | [], k, v => [(k, v)]
  | (k', v') :: m, k, v => if k' = k then (k', v) :: m else (k', v') :: write m k v

/-- The keys of the map. -/
def keys (m : GoMap) : List Str := m.map Prod.fst

/-- Well-formedness: no key occurs twice. -/
def WF (m : GoMap) : Prop := (keys m).Nodup

instance decidableWF (m : GoMap) : Decidable (WF m) :=
  inferInstanceAs (Decidable (keys m).Nodup)

end GoMap

/-! ## The Go standard library functions used by the merge -/

namespace strings

/-- Go `strings.Split(s, "/")`: the segments of `s` between the separators;
there is always one segment more than there are separators. -/
def Split : Str → List Str
  | [] => [[]]
  | c :: cs =>
    if c = '/' then [] :: Split cs
    else
      match Split cs with
      | [] => [[c]]
      | s :: ss => (c :: s) :: ss

/-- Go `strings.HasPrefix`. -/
def HasPrefix : Str → Str → Bool
  | _, [] => true
  | [], _ :: _ => false
  | c :: s, d :: p => c = d && HasPrefix s p

/-- Go `strings.TrimPrefix(s, p)`: `s` without the leading `p` when `s`
starts with `p`, and `s` itself otherwise. -/
def TrimPrefix (s p : Str) : Str :=
  if HasPrefix s p then s.drop p.length else s

end strings

namespace path

/-- The backtracking step of `path.Clean` at a `..` element, on the reversed
output buffer: `out.w--`, then `out.w--` again as long as `out.w > dotdot` and
the byte just dropped is not a slash. -/
def backtrack (dotdot : Nat) : List Char → List Char
  | [] => []
  | c :: rest =>
    if rest.length > dotdot ∧ c ≠ '/' then backtrack dotdot rest else rest

/-- The main loop of `path.Clean`.  `rest` is the unread part of the path
(`path[r:]`), `out` the output buffer in reverse (`out.w` is its length) and
`dotdot` the index where `..` must stop.  Every iteration reads at least one
byte, so `rest.length` iterations are enough. -/
def cleanLoop (rooted : Bool) : Nat → List Char → List Char → Nat → List Char
  | 0, _, out, _ => out
  | fuel + 1, rest, out, dotdot =>
    match rest with
    | [] => out
    | c :: r1 =>
      if c = '/' then
        -- empty path element
        cleanLoop rooted fuel r1 out dotdot
      else if c = '.' ∧ (r1 = [] ∨ r1.head? = some '/') then
        -- . element
        cleanLoop rooted fuel r1 out dotdot
      else if c = '.' ∧ r1.head? = some '.' ∧
          (r1.tail = [] ∨ r1.tail.head? = some '/') then
        -- .. element: remove to last /
        if out.length > dotdot then
          cleanLoop rooted fuel r1.tail (backtrack dotdot out) dotdot
        else if !rooted then
          let out1 := if out.length > 0 then '/' :: out else out
          let out2 := '.' :: '.' :: out1
          cleanLoop rooted fuel r1.tail out2 out2.length
        else
          cleanLoop rooted fuel r1.tail out dotdot
      else
        -- real path element: add slash if needed, then copy the element
        let out1 :=
          if (rooted ∧ out.length ≠ 1) ∨ (¬ rooted ∧ out.length ≠ 0) then '/' :: out
          else out
        cleanLoop rooted fuel (rest.dropWhile (· ≠ '/'))
          ((rest.takeWhile (· ≠ '/')).reverse ++ out1) dotdot

/-- Go `path.Clean`: the shortest path name equivalent to `p` by purely
lexical processing. -/
def Clean (p : Str) : Str :=
  match p with
  | [] => ['.']
  | c :: r1 =>
    let rooted : Bool := c = '/'
    let out :=
      if rooted then cleanLoop rooted r1.length r1 ['/'] 1
      else cleanLoop rooted p.length p [] 0
    if out.length = 0 then ['.'] else out.reverse

/-- The part of `p` up to and including its last slash (`path.Split`'s first
result); empty when `p` has no slash. -/
def splitDir : Str → Str
  | [] => []
  | c :: cs => if '/' ∈ cs ∨ c = '/' then c :: splitDir cs else []

/-- Go `path.Dir`: all but the last element of the path, cleaned. -/
def Dir (p : Str) : Str := Clean (splitDir p)

/-- Drop the trailing slashes of a reversed path. -/
def stripSlashes : List Char → List Char
  | [] => []
  | c :: cs => if c = '/' then stripSlashes cs else c :: cs

/-- Go `path.Base`: the last element of the path; trailing slashes are removed
first, the empty path gives `.` and a path of slashes only gives `/`. -/
def Base (p : Str) : Str :=
  if p = [] then ['.']
  else
    let p1 := stripSlashes p.reverse
    let p2 := (p1.takeWhile (· ≠ '/')).reverse
    if p1 = [] then ['/'] else p2

/-- Go `strings.Join(elems, "/")`, which `path.Join` applies to its elements. -/
def joinSlash : List Str → Str
  | [] => []
  | [e] => e
  | e :: es => e ++ '/' :: joinSlash es

/-- Go `path.Join`: the leading empty elements are ignored, the others are
joined with slashes and the result is cleaned; the empty string when every
element is empty. -/
def Join (elems : List Str) : Str :=
  match elems.dropWhile (· = []) with
  | [] => []
  | es => Clean (joinSlash es)

end path

namespace sort

/-- Go `sort.Strings`: the strings in ascending lexicographic order. -/
def Strings (l : List Str) : List Str := l.insertionSort (· ≤ ·)

end sort

/-! ## The records -/

/-- Modelled from the spec: the per-plugin language configuration
`LanguagePluginConfig`, a record declared in another file of the package; the
merge reads only its implementation identifier. -/
structure LanguagePluginConfig where
  /-- the implementation identifier of the plugin -/
  Implementation : Str
  deriving DecidableEq

/-- Modelled from the spec: the plugin result `PluginConfiguration`, a record
declared in another file of the package: the plugin's configuration, its
generated output files, its imports and its optional explicit mappings. -/
structure PluginConfiguration where
  /-- the plugin's own configuration -/
  Config : LanguagePluginConfig
  /-- the generated output file paths, in order -/
  Outputs : List Str
  /-- the import strings, in order -/
  Imports : List Str
  /-- the explicit mapping table, empty when the plugin gives none -/
  Mappings : GoMap
  deriving DecidableEq

/-- The record `ProtocConfiguration`: the complete configuration and source
mappings.  The types of the language configuration and of the proto library
are declared elsewhere and passed through untouched, so they are parameters. -/
structure ProtocConfiguration (LC PL : Type) where
  /-- the language configuration -/
  LanguageConfig : LC
  /-- the workspace relative path of the BUILD file of the rule -/
  Rel : Str
  /-- the prefix for the rule -/
  Prefix : Str
  /-- the library that holds the proto files -/
  Library : PL
  /-- the configuration for the plugins -/
  Plugins : List PluginConfiguration
  /-- the merged set of source files -/
  Outputs : List Str
  /-- the merged set of imports -/
  Imports : List Str
  /-- the generated source mappings -/
  Mappings : GoMap

/-! ## The merge -/

/-- The body of the inner loop of `mergeSources` (the baseline method) for one
file name, on the accumulators `(srcs, mappings)`. -/
def mergeFile (rel : Str) (acc : List Str × GoMap) (filename : Str) : List Str × GoMap :=
  let dir := path.Dir filename
  let dir := if dir = ['.'] ∧ rel = [] then rel else dir
  if dir = rel then
    -- no mapping required, just add to the srcs list
    (acc.1 ++ [strings.TrimPrefix filename (rel ++ ['/'])], acc.2)
  else
    -- add the basename only to the srcs list and add a mapping
    let base := path.Base filename
    (acc.1 ++ [base], acc.2.write base filename)

/-- The loop `for k, v := range m { mappings[k] = v }`. -/
def copyMappings (mappings m : GoMap) : GoMap :=
  m.foldl (fun acc kv => acc.write kv.1 kv.2) mappings

/-- The body of the outer loop of `mergeSources` for one plugin. -/
def mergePlugin (rel : Str) (acc : List Str × GoMap) (plugin : PluginConfiguration) :
    List Str × GoMap :=
  -- if plugin provided mappings for us, use those preferentially
  if plugin.Mappings.length > 0 then
    (acc.1 ++ plugin.Outputs, copyMappings acc.2 plugin.Mappings)
  else
    -- otherwise, fallback to baseline method
    plugin.Outputs.foldl (mergeFile rel) acc

/-- The outer loop of `mergeSources`, from the accumulators `acc`. -/
def mergeLoop (rel : Str) (plugins : List PluginConfiguration) (acc : List Str × GoMap) :
    List Str × GoMap :=
  plugins.foldl (mergePlugin rel) acc

/-- The loop `for k, v := range mappings { mappings[k] = path.Join("external", ws, v) }`. -/
def rewriteExternal (ws : Str) (mappings : GoMap) : GoMap :=
  mappings.foldl (fun acc kv => acc.write kv.1 (path.Join ["external".toList, ws, kv.2])) mappings

/-- The function `mergeSources`: the source files generated by the rule and
the necessary mappings.  An index out of range gives `none`. -/
def mergeSources (workDir rel : Str) (plugins : List PluginConfiguration) :
    Option (List Str × GoMap) :=
  let acc := mergeLoop rel plugins ([], [])
  if workDir ≠ [] then
    let parts := strings.Split workDir
    let n := parts.length
    if n ≥ 2 then do
      let seg ← parts[n - 2]?
      if seg = "external".toList then do
        let ws ← parts[n - 1]?
        pure (acc.1, rewriteExternal ws acc.2)
      else pure acc
    else pure acc
  else pure acc

/-- The function `mergeImports`: the merged list of imports for the list of
plugins. -/
def mergeImports (plugins : List PluginConfiguration) : List Str :=
  sort.Strings (plugins.foldl (fun imports plugin => imports ++ plugin.Imports) [])

/-- The function `newProtocConfiguration`. -/
def newProtocConfiguration {LC PL : Type} (lc : LC) (workDir rel pfx : Str) (lib : PL)
    (plugins : List PluginConfiguration) : Option (ProtocConfiguration LC PL) := do
  let (srcs, mappings) ← mergeSources workDir rel plugins
  let imports := mergeImports plugins
  pure {
    LanguageConfig := lc
    Rel := rel
    Prefix := pfx
    Library := lib
    Plugins := plugins
    Outputs := srcs
    Imports := imports
    Mappings := mappings }

/-- The scan of `GetPluginConfiguration` over the plugin list. -/
def scanPlugins (implementationName : Str) :
    List PluginConfiguration → Option PluginConfiguration
  | [] => none
  | plugin :: rest =>
    if plugin.Config.Implementation = implementationName then some plugin
    else scanPlugins implementationName rest

/-- The method `GetPluginConfiguration`: `none` is the nil result. -/
def ProtocConfiguration.GetPluginConfiguration {LC PL : Type} (c : ProtocConfiguration LC PL)
    (implementationName : Str) : Option PluginConfiguration :=
  scanPlugins implementationName c.Plugins

/-- The method `GetPluginOutputs`: the nil slice is the empty list. -/
def ProtocConfiguration.GetPluginOutputs {LC PL : Type} (c : ProtocConfiguration LC PL)
    (implementationName : Str) : List Str :=
  match c.GetPluginConfiguration implementationName with
  | none => []
  | some plugin => plugin.Outputs

/-- A plugin given by its implementation name, outputs, imports and mappings. -/
def mkPlugin (impl : String) (outputs imports : List String) (mappings : List (String × String)) :
    PluginConfiguration :=
  { Config := { Implementation := impl.toList }
    Outputs := outputs.map String.toList
    Imports := imports.map String.toList
    Mappings := mappings.map (fun kv => (kv.1.toList, kv.2.toList)) }

/-! ## Vocabulary for stating what the merge does -/

/-- The directory of `filename` as `mergeSources` compares it with `rel`:
`path.Dir filename`, where `.` is replaced by `rel` when `rel` is empty. -/
def fileDir (rel filename : Str) : Str :=
  if path.Dir filename = ['.'] ∧ rel = [] then rel else path.Dir filename

/-- The entry listed in the merged outputs for a file of a plugin that has no
explicit mappings. -/
def fileEntry (rel filename : Str) : Str :=
  if fileDir rel filename = rel then strings.TrimPrefix filename (rel ++ ['/'])
  else path.Base filename

/-- The assignments made to the merged mappings for a file of a plugin that has
no explicit mappings: none, or the one `mappings[base] = filename`. -/
def fileWrites (rel filename : Str) : GoMap :=
  if fileDir rel filename = rel then [] else [(path.Base filename, filename)]

/-- The entries a plugin adds to the merged outputs, in order. -/
def pluginEntries (rel : Str) (plugin : PluginConfiguration) : List Str :=
  if plugin.Mappings.length > 0 then plugin.Outputs
  else plugin.Outputs.map (fileEntry rel)

/-- The assignments a plugin makes to the merged mappings, in order. -/
def pluginWrites (rel : Str) (plugin : PluginConfiguration) : GoMap :=
  if plugin.Mappings.length > 0 then plugin.Mappings
  else plugin.Outputs.flatMap (fileWrites rel)

/-- The keys a plugin assigns in the merged mappings. -/
def pluginKeys (rel : Str) (plugin : PluginConfiguration) : List Str :=
  GoMap.keys (pluginWrites rel plugin)

/-- The guard of the external rewrite in `mergeSources`: the workspace name
`parts[n-1]` when `workDir` is not empty, has at least two segments and the
segment `parts[n-2]` is `external`; `none` when no rewrite takes place. -/
def externalWorkspace (workDir : Str) : Option Str :=
  let parts := strings.Split workDir
  let n := parts.length
  if workDir ≠ [] ∧ n ≥ 2 ∧ parts[n - 2]? = some "external".toList then parts[n - 1]? else none

/-- A plain path element: not empty, without a slash, and neither `.` nor
`..`. -/
def plainElem (s : Str) : Prop := s ≠ [] ∧ '/' ∉ s ∧ s ≠ ['.'] ∧ s ≠ ['.', '.']

instance decidablePlainElem (s : Str) : Decidable (plainElem s) :=
  inferInstanceAs (Decidable (_ ∧ _))

/-- The number of output files of a list of plugins. -/
def outputCount (plugins : List PluginConfiguration) : Nat :=
  (plugins.flatMap (·.Outputs)).length

/-! ## The standard library model -/

/-- One more unit of fuel than the length of the unread input changes nothing
in the loop of `path.Clean`. -/
theorem cleanLoop_succ (rooted : Bool) (fuel : Nat) :
    ∀ (rest out : List Char) (dotdot : Nat), rest.length ≤ fuel →
      path.cleanLoop rooted (fuel + 1) rest out dotdot
        = path.cleanLoop rooted fuel rest out dotdot := by
  induction fuel with
  | zero =>
    intro rest out dotdot h
    have : rest = [] := List.length_eq_zero.mp (Nat.le_zero.mp h)
    subst this
    simp [path.cleanLoop]
  | succ n ih =>
    intro rest out dotdot h
    cases rest with
    | nil => simp [path.cleanLoop]
    | cons c r1 =>
      have h1 : r1.length ≤ n := by simpa using h
      have h2 : r1.tail.length ≤ n := by
        rw [List.length_tail]; omega
      by_cases hc : c = '/'
      · rw [path.cleanLoop]
        conv_rhs => rw [path.cleanLoop]
        simp only [hc, if_true, ih _ _ _ h1]
      · have h3 : ((c :: r1).dropWhile (· ≠ '/')).length ≤ n := by
          have : (c :: r1).dropWhile (· ≠ '/') = r1.dropWhile (· ≠ '/') := by
            simp [List.dropWhile, hc]
          rw [this]
          exact le_trans (List.dropWhile_suffix _).length_le h1
        rw [path.cleanLoop]
        conv_rhs => rw [path.cleanLoop]
        simp only [ih _ _ _ h1, ih _ _ _ h2, ih _ _ _ h3]

theorem cleanLoop_fuel (rooted : Bool) (fuel : Nat) (rest out : List Char) (dotdot : Nat)
    (h : rest.length ≤ fuel) :
    path.cleanLoop rooted fuel rest out dotdot
      = path.cleanLoop rooted rest.length rest out dotdot := by
  induction fuel with
  | zero =>
    have : rest = [] := List.length_eq_zero.mp (Nat.le_zero.mp h)
    subst this
    rfl
  | succ n ih =>
    by_cases hn : rest.length ≤ n
    · rw [cleanLoop_succ rooted n rest out dotdot hn, ih hn]
    · have : rest.length = n + 1 := by omega
      rw [this]

theorem takeWhile_elem (e rest : List Char) (he : '/' ∉ e)
    (hr : rest = [] ∨ rest.head? = some '/') :
    (e ++ rest).takeWhile (· ≠ '/') = e ∧ (e ++ rest).dropWhile (· ≠ '/') = rest := by
  induction e with
  | nil =>
    rcases hr with rfl | hr
    · simp
    · cases rest with
      | nil => simp
      | cons d ds =>
        have : d = '/' := by simpa using hr
        subst this
        simp [List.takeWhile, List.dropWhile]
  | cons c e ih =>
    simp only [List.mem_cons, not_or] at he
    have hc : c ≠ '/' := fun h => he.1 h.symm
    have h := ih he.2
    simp only [List.cons_append, List.takeWhile, List.dropWhile, hc, ne_eq, not_false_eq_true,
      decide_True, List.cons.injEq, true_and]
    exact h

theorem cleanLoop_elem (fuel : Nat) (e rest out : List Char) (he : plainElem e)
    (hr : rest = [] ∨ rest.head? = some '/') :
    path.cleanLoop false (fuel + 1) (e ++ rest) out 0
      = path.cleanLoop false fuel rest
          (e.reverse ++ (if out.length ≠ 0 then '/' :: out else out)) 0 := by
  obtain ⟨hne, hslash, hdot, hdotdot⟩ := he
  obtain ⟨ht, hd⟩ := takeWhile_elem e rest hslash hr
  cases e with
  | nil => exact absurd rfl hne
  | cons c e' =>
    simp only [List.mem_cons, not_or] at hslash
    have hc : c ≠ '/' := fun h => hslash.1 h.symm
    have h2 : ¬ (c = '.' ∧ (e' ++ rest = [] ∨ (e' ++ rest).head? = some '/')) := by
      rintro ⟨rfl, h⟩
      cases e' with
      | nil => exact hdot rfl
      | cons x xs =>
        simp only [List.mem_cons, not_or] at hslash
        rcases h with h | h
        · simp at h
        · simp at h
          exact hslash.2.1 h.symm
    have h3 : ¬ (c = '.' ∧ (e' ++ rest).head? = some '.' ∧
        ((e' ++ rest).tail = [] ∨ (e' ++ rest).tail.head? = some '/')) := by
      rintro ⟨rfl, h, h'⟩
      cases e' with
      | nil => exact hdot rfl
      | cons x xs =>
        have hx : x = '.' := by simpa using h
        subst hx
        cases xs with
        | nil => exact hdotdot rfl
        | cons y ys =>
          simp only [List.mem_cons, not_or] at hslash
          rcases h' with h' | h'
          · simp at h'
          · simp at h'
            exact hslash.2.2.1 h'.symm
    simp only [List.cons_append] at ht hd ⊢
    rw [path.cleanLoop]
    simp only []
    rw [if_neg hc, if_neg h2, if_neg h3, ht, hd]
    simp

theorem cleanLoop_joinSlash (elems : List Str) (hne : elems ≠ [])
    (hall : ∀ e ∈ elems, plainElem e) (fuel : Nat) (out : List Char)
    (hf : (path.joinSlash elems).length ≤ fuel) :
    path.cleanLoop false fuel (path.joinSlash elems) out 0
      = (path.joinSlash elems).reverse ++ (if out.length ≠ 0 then '/' :: out else out) := by
  induction elems generalizing fuel out with
  | nil => exact absurd rfl hne
  | cons e es ih =>
    have he := hall e (List.mem_cons_self _ _)
    have hlen : 0 < e.length := List.length_pos.mpr he.1
    cases es with
    | nil =>
      simp only [path.joinSlash] at hf ⊢
      obtain ⟨n, rfl⟩ : ∃ n, fuel = n + 1 := ⟨fuel - 1, by omega⟩
      have := cleanLoop_elem n e [] out he (Or.inl rfl)
      rw [List.append_nil] at this
      rw [this]
      cases n <;> simp [path.cleanLoop]
    | cons e' es' =>
      simp only [path.joinSlash, List.length_append, List.length_cons] at hf ⊢
      obtain ⟨n, rfl⟩ : ∃ n, fuel = n + 2 := ⟨fuel - 2, by omega⟩
      rw [cleanLoop_elem (n + 1) e ('/' :: path.joinSlash (e' :: es')) out he (Or.inr rfl)]
      rw [path.cleanLoop]
      simp only [if_true]
      rw [ih (List.cons_ne_nil _ _) (fun x hx => hall x (List.mem_cons_of_mem _ hx)) n _
        (by omega)]
      simp only [List.reverse_append, List.reverse_cons, List.append_assoc, List.singleton_append,
        List.length_append, List.length_reverse, ne_eq]
      have hz : ¬ (e.length + (if ¬ out.length = 0 then '/' :: out else out).length = 0) := by
        omega
      rw [if_pos hz]
      rfl

/-- A relative path made of plain elements separated by single slashes is in
clean form: `path.Clean` returns it unchanged. -/
theorem Clean_joinSlash (elems : List Str) (hne : elems ≠ [])
    (hall : ∀ e ∈ elems, plainElem e) :
    path.Clean (path.joinSlash elems) = path.joinSlash elems := by
  have hloop := cleanLoop_joinSlash elems hne hall (path.joinSlash elems).length [] (le_refl _)
  have hpos : path.joinSlash elems ≠ [] := by
    cases elems with
    | nil => exact absurd rfl hne
    | cons e es =>
      have he := (hall e (List.mem_cons_self _ _)).1
      cases es with
      | nil => simpa [path.joinSlash] using he
      | cons e' es' => simp [path.joinSlash, he]
  have hhead : (path.joinSlash elems).head? ≠ some '/' := by
    cases elems with
    | nil => exact absurd rfl hne
    | cons e es =>
      obtain ⟨he, hs, _, _⟩ := hall e (List.mem_cons_self _ _)
      cases e with
      | nil => exact absurd rfl he
      | cons c cs =>
        simp only [List.mem_cons, not_or] at hs
        cases es with
        | nil =>
          simp only [path.joinSlash, List.head?_cons, ne_eq, Option.some.injEq]
          exact fun h => hs.1 h.symm
        | cons e' es' =>
          simp only [path.joinSlash, List.cons_append, List.head?_cons, ne_eq,
            Option.some.injEq]
          exact fun h => hs.1 h.symm
  generalize path.joinSlash elems = J at hloop hpos hhead
  cases J with
  | nil => exact absurd rfl hpos
  | cons c r1 =>
    have hc : c ≠ '/' := fun h => hhead (by simp [h])
    unfold path.Clean
    simp only [hc, decide_False, Bool.false_eq_true, if_false]
    rw [hloop]
    simp

/-- The model of `path.Clean`, `path.Dir`, `path.Base` and `path.Join` at
sample paths of the Go documentation. -/
theorem path_examples :
    path.Clean "a//b/./c/..".toList = "a/b".toList ∧
    path.Clean "/../a/b/../../..".toList = "/".toList ∧
    path.Clean "../../a/../b".toList = "../../b".toList ∧
    path.Clean "abc/def/../../..".toList = "..".toList ∧
    path.Clean "".toList = ".".toList ∧
    path.Dir "foo/bar/a.java".toList = "foo/bar".toList ∧
    path.Dir "a.java".toList = ".".toList ∧
    path.Dir "/a.java".toList = "/".toList ∧
    path.Base "foo/bar/a.java".toList = "a.java".toList ∧
    path.Base "///".toList = "/".toList ∧
    path.Base "a/b//".toList = "b".toList ∧
    path.Base "".toList = ".".toList ∧
    path.Join ["a".toList, "".toList, "b".toList] = "a/b".toList ∧
    path.Join ["".toList, "".toList] = [] ∧
    path.Join ["".toList, "a/../..".toList] = "..".toList := by
  decide

/-- The model of `strings.Split`, `strings.TrimPrefix` and `sort.Strings` at
sample strings. -/
theorem strings_examples :
    strings.Split "/tmp/external/ws".toList
      = ["".toList, "tmp".toList, "external".toList, "ws".toList] ∧
    strings.Split "".toList = ["".toList] ∧
    strings.Split "a/".toList = ["a".toList, "".toList] ∧
    strings.TrimPrefix "foo/bar/a.java".toList "foo/bar/".toList = "a.java".toList ∧
    strings.TrimPrefix "a.java".toList "foo/bar/".toList = "a.java".toList ∧
    sort.Strings ["b".toList, "a".toList, "c".toList, "ab".toList, "a".toList]
      = ["a".toList, "a".toList, "ab".toList, "b".toList, "c".toList] := by
  decide

/-! ## Facts about Go maps -/

namespace GoMap

theorem read_write (m : GoMap) (k v k' : Str) :
    (m.write k v).read k' = if k = k' then some v else m.read k' := by
  induction m with
  | nil => simp [write, read]
  | cons e m ih =>
    obtain ⟨a, b⟩ := e
    by_cases h : a = k
    · subst h
      by_cases h' : a = k' <;> simp [write, read, h']
    · by_cases h' : a = k'
      · subst h'
        have : ¬ k = a := fun e => h e.symm
        simp [write, read, h, this]
      · simp [write, read, h, h', ih]

theorem read_write_self (m : GoMap) (k v : Str) : (m.write k v).read k = some v := by
  simp [read_write]

theorem read_write_ne (m : GoMap) {k k' : Str} (v : Str) (h : k ≠ k') :
    (m.write k v).read k' = m.read k' := by
  simp [read_write, h]

theorem write_of_not_mem (m : GoMap) (k v : Str) (h : k ∉ keys m) :
    m.write k v = m ++ [(k, v)] := by
  induction m with
  | nil => rfl
  | cons e m ih =>
    obtain ⟨a, b⟩ := e
    simp only [keys, List.map_cons, List.mem_cons, not_or] at h
    have h1 : ¬ a = k := fun e => h.1 e.symm
    simp [write, h1, ih h.2]

theorem write_append_left (a b : GoMap) (k v : Str) (h : k ∉ keys a) :
    (a ++ b).write k v = a ++ b.write k v := by
  induction a with
  | nil => rfl
  | cons e a ih =>
    obtain ⟨x, y⟩ := e
    simp only [keys, List.map_cons, List.mem_cons, not_or] at h
    have h1 : ¬ x = k := fun e => h.1 e.symm
    simp [write, h1, ih h.2]

theorem keys_write (m : GoMap) (k v : Str) :
    keys (m.write k v) = if k ∈ keys m then keys m else keys m ++ [k] := by
  induction m with
  | nil => simp [write, keys]
  | cons e m ih =>
    obtain ⟨a, b⟩ := e
    by_cases h : a = k
    · subst h
      simp [write, keys]
    · have h1 : ¬ k = a := fun e => h e.symm
      simp only [keys] at ih
      by_cases hk : k ∈ List.map Prod.fst m
      · simp [write, keys, h, h1, hk, ih]
      · simp [write, keys, h, h1, hk, ih]

theorem mem_keys_write (m : GoMap) (k v k' : Str) :
    k' ∈ keys (m.write k v) ↔ k' = k ∨ k' ∈ keys m := by
  rw [keys_write]
  by_cases h : k ∈ keys m
  · simp only [h, if_true]
    constructor
    · exact Or.inr
    · rintro (rfl | h')
      · exact h
      · exact h'
  · simp only [h, if_false, List.mem_append, List.mem_singleton]
    tauto

theorem WF_write (m : GoMap) (k v : Str) (h : WF m) : WF (m.write k v) := by
  unfold WF at *
  rw [keys_write]
  by_cases hk : k ∈ keys m
  · simpa [hk] using h
  · simp only [hk, if_false]
    rw [List.nodup_append]
    refine ⟨h, List.nodup_singleton k, ?_⟩
    intro x hx hx'
    rw [List.mem_singleton] at hx'
    exact hk (hx' ▸ hx)

theorem read_eq_none_iff (m : GoMap) (k : Str) : m.read k = none ↔ k ∉ keys m := by
  induction m with
  | nil => simp [read, keys]
  | cons e m ih =>
    obtain ⟨a, b⟩ := e
    by_cases h : a = k
    · simp [read, keys, h]
    · have h1 : ¬ k = a := fun e => h e.symm
      simp only [keys] at ih
      simp [read, keys, h, h1, ih]

theorem read_map_values (g : Str → Str) (m : GoMap) (k : Str) :
    GoMap.read (m.map (fun kv => (kv.1, g kv.2))) k = (m.read k).map g := by
  induction m with
  | nil => rfl
  | cons e m ih =>
    obtain ⟨a, b⟩ := e
    by_cases h : a = k <;> simp [read, h, ih]

theorem keys_map_values (g : Str → Str) (m : GoMap) :
    keys (m.map (fun kv => (kv.1, g kv.2))) = keys m := by
  simp [keys, List.map_map, Function.comp_def]

/-- Assigning `g v` to every key `k` of the map while ranging over its
entries `(k, v)` rewrites each value exactly once. -/
theorem foldl_set_values (g : Str → Str) (l pre : GoMap) (h : WF (pre ++ l)) :
    l.foldl (fun acc kv => GoMap.write acc kv.1 (g kv.2)) (pre.map (fun kv => (kv.1, g kv.2)) ++ l)
      = (pre ++ l).map (fun kv => (kv.1, g kv.2)) := by
  induction l generalizing pre with
  | nil => simp
  | cons e l ih =>
    obtain ⟨a, b⟩ := e
    have hnot : a ∉ keys (pre.map (fun kv => (kv.1, g kv.2))) := by
      rw [keys_map_values]
      unfold WF keys at h
      rw [List.map_append, List.nodup_append] at h
      intro ha
      exact h.2.2 ha (by simp)
    have hstep : GoMap.write (pre.map (fun kv => (kv.1, g kv.2)) ++ (a, b) :: l) a (g b)
        = (pre ++ [(a, b)]).map (fun kv => (kv.1, g kv.2)) ++ l := by
      rw [write_append_left _ _ _ _ hnot]
      simp [write]
    rw [List.foldl_cons, hstep]
    have h' : WF ((pre ++ [(a, b)]) ++ l) := by simpa using h
    simpa using ih (pre ++ [(a, b)]) h'

end GoMap

/-! ## The shape of the merge loop -/

theorem copyMappings_append (m l₁ l₂ : GoMap) :
    copyMappings m (l₁ ++ l₂) = copyMappings (copyMappings m l₁) l₂ := by
  simp [copyMappings, List.foldl_append]

theorem copyMappings_cons (m : GoMap) (kv : Str × Str) (l : GoMap) :
    copyMappings m (kv :: l) = copyMappings (m.write kv.1 kv.2) l := rfl

theorem copyMappings_nil (m : GoMap) : copyMappings m [] = m := rfl

theorem read_copyMappings_of_not_mem (m l : GoMap) (k : Str) (h : k ∉ GoMap.keys l) :
    (copyMappings m l).read k = m.read k := by
  induction l generalizing m with
  | nil => rfl
  | cons e l ih =>
    obtain ⟨a, b⟩ := e
    simp only [GoMap.keys, List.map_cons, List.mem_cons, not_or] at h
    rw [copyMappings_cons, ih _ h.2]
    exact GoMap.read_write_ne m b (fun e => h.1 e.symm)

theorem read_copyMappings_last (m l₁ l₂ : GoMap) (k v : Str) (h : k ∉ GoMap.keys l₂) :
    (copyMappings m (l₁ ++ (k, v) :: l₂)).read k = some v := by
  rw [copyMappings_append, copyMappings_cons, read_copyMappings_of_not_mem _ _ _ h]
  exact GoMap.read_write_self _ _ _

theorem WF_copyMappings (m l : GoMap) (h : GoMap.WF m) : GoMap.WF (copyMappings m l) := by
  induction l generalizing m with
  | nil => exact h
  | cons e l ih => exact ih _ (GoMap.WF_write m e.1 e.2 h)

theorem mem_keys_copyMappings (m l : GoMap) (k : Str) :
    k ∈ GoMap.keys (copyMappings m l) ↔ k ∈ GoMap.keys m ∨ k ∈ GoMap.keys l := by
  induction l generalizing m with
  | nil => simp [copyMappings_nil, GoMap.keys]
  | cons e l ih =>
    rw [copyMappings_cons, ih, GoMap.mem_keys_write]
    simp only [GoMap.keys, List.map_cons, List.mem_cons]
    tauto

theorem copyMappings_of_WF (m l : GoMap) (h : GoMap.WF (m ++ l)) :
    copyMappings m l = m ++ l := by
  induction l generalizing m with
  | nil => simp [copyMappings_nil]
  | cons e l ih =>
    obtain ⟨a, b⟩ := e
    have hnot : a ∉ GoMap.keys m := by
      unfold GoMap.WF GoMap.keys at h
      rw [List.map_append, List.nodup_append] at h
      intro ha
      exact h.2.2 ha (by simp)
    have h' : GoMap.WF ((m ++ [(a, b)]) ++ l) := by simpa using h
    rw [copyMappings_cons, GoMap.write_of_not_mem m a b hnot, ih _ h']
    simp

theorem mergeFile_eq (rel : Str) (acc : List Str × GoMap) (f : Str) :
    mergeFile rel acc f
      = (acc.1 ++ [fileEntry rel f], copyMappings acc.2 (fileWrites rel f)) := by
  unfold mergeFile fileEntry fileWrites fileDir
  by_cases h : (if path.Dir f = ['.'] ∧ rel = [] then rel else path.Dir f) = rel
  · simp only [h, if_true, copyMappings_nil]
  · simp only [h, if_false]
    rfl

theorem foldl_mergeFile (rel : Str) (fs : List Str) (acc : List Str × GoMap) :
    fs.foldl (mergeFile rel) acc
      = (acc.1 ++ fs.map (fileEntry rel), copyMappings acc.2 (fs.flatMap (fileWrites rel))) := by
  induction fs generalizing acc with
  | nil => simp [copyMappings_nil]
  | cons f fs ih =>
    rw [List.foldl_cons, ih, mergeFile_eq]
    simp [List.flatMap_cons, copyMappings_append]

theorem mergePlugin_eq (rel : Str) (acc : List Str × GoMap) (p : PluginConfiguration) :
    mergePlugin rel acc p
      = (acc.1 ++ pluginEntries rel p, copyMappings acc.2 (pluginWrites rel p)) := by
  unfold mergePlugin pluginEntries pluginWrites
  by_cases h : p.Mappings.length > 0
  · simp only [h, if_true]
  · simp only [h, if_false, foldl_mergeFile]

theorem mergeLoop_eq (rel : Str) (plugins : List PluginConfiguration) (acc : List Str × GoMap) :
    mergeLoop rel plugins acc
      = (acc.1 ++ plugins.flatMap (pluginEntries rel),
         copyMappings acc.2 (plugins.flatMap (pluginWrites rel))) := by
  induction plugins generalizing acc with
  | nil => simp [mergeLoop, copyMappings_nil]
  | cons p ps ih =>
    unfold mergeLoop at ih ⊢
    rw [List.foldl_cons, ih, mergePlugin_eq]
    simp [List.flatMap_cons, copyMappings_append]

theorem rewriteExternal_eq_map (ws : Str) (m : GoMap) (h : GoMap.WF m) :
    rewriteExternal ws m
      = m.map (fun kv => (kv.1, path.Join ["external".toList, ws, kv.2])) := by
  have := GoMap.foldl_set_values (fun v => path.Join ["external".toList, ws, v]) m [] (by simpa using h)
  simpa [rewriteExternal] using this

theorem externalWorkspace_none_or (workDir : Str) :
    externalWorkspace workDir = none ∨
    ∃ ws, externalWorkspace workDir = some ws ∧ workDir ≠ [] ∧
      (strings.Split workDir).length ≥ 2 ∧
      (strings.Split workDir)[(strings.Split workDir).length - 2]? = some "external".toList ∧
      (strings.Split workDir)[(strings.Split workDir).length - 1]? = some ws := by
  unfold externalWorkspace
  by_cases h : workDir ≠ [] ∧ (strings.Split workDir).length ≥ 2 ∧
      (strings.Split workDir)[(strings.Split workDir).length - 2]? = some "external".toList
  · right
    have hlt : (strings.Split workDir).length - 1 < (strings.Split workDir).length := by omega
    refine ⟨(strings.Split workDir)[(strings.Split workDir).length - 1], ?_, h.1, h.2.1, h.2.2, ?_⟩
    · rw [if_pos h]
      exact List.getElem?_eq_getElem hlt
    · exact List.getElem?_eq_getElem hlt
  · left
    rw [if_neg h]

/-- The merged mappings before the external rewrite. -/
theorem WF_mergedWrites (rel : Str) (plugins : List PluginConfiguration) :
    GoMap.WF (copyMappings [] (plugins.flatMap (pluginWrites rel))) :=
  WF_copyMappings _ _ (by simp [GoMap.WF, GoMap.keys])

/-- The function `mergeSources` always returns, and its result is the list of
the plugins' entries together with the table of their assignments, rewritten
when the work directory is in an external workspace. -/
theorem mergeSources_eq (workDir rel : Str) (plugins : List PluginConfiguration) :
    mergeSources workDir rel plugins
      = some (plugins.flatMap (pluginEntries rel),
          match externalWorkspace workDir with
          | none => copyMappings [] (plugins.flatMap (pluginWrites rel))
          | some ws =>
            (copyMappings [] (plugins.flatMap (pluginWrites rel))).map
              (fun kv => (kv.1, path.Join ["external".toList, ws, kv.2]))) := by
  have hwf := WF_mergedWrites rel plugins
  unfold mergeSources
  simp only [mergeLoop_eq, List.nil_append]
  rcases externalWorkspace_none_or workDir with h | ⟨ws, h, h1, h2, h3, h4⟩
  · rw [h]
    unfold externalWorkspace at h
    by_cases hw : workDir ≠ []
    · by_cases hn : (strings.Split workDir).length ≥ 2
      · have hlt : (strings.Split workDir).length - 2 < (strings.Split workDir).length := by omega
        by_cases hs : (strings.Split workDir)[(strings.Split workDir).length - 2]?
            = some "external".toList
        · exfalso
          have hlt1 : (strings.Split workDir).length - 1 < (strings.Split workDir).length := by
            omega
          rw [if_pos ⟨hw, hn, hs⟩, List.getElem?_eq_getElem hlt1] at h
          exact Option.some_ne_none _ h
        · rw [List.getElem?_eq_getElem hlt] at hs ⊢
          have hs' : ¬ (strings.Split workDir)[(strings.Split workDir).length - 2]
              = "external".toList := fun e => hs (by rw [e])
          simp only [ne_eq, hw, not_false_eq_true, if_true, hn, Option.bind_eq_bind,
            Option.some_bind, if_neg hs', Option.pure_def, ge_iff_le]
      · simp [hw, hn]
    · simp [hw]
  · rw [h]
    simp only [h1, h2, h3, h4, ne_eq, not_false_eq_true, if_true, Option.bind_eq_bind,
      Option.some_bind, Option.pure_def, ge_iff_le]
    rw [rewriteExternal_eq_map _ _ hwf]

/-! ## Positions in the merged outputs -/

theorem length_pluginEntries (rel : Str) (p : PluginConfiguration) :
    (pluginEntries rel p).length = p.Outputs.length := by
  unfold pluginEntries
  split <;> simp

theorem length_flatMap_pluginEntries (rel : Str) (plugins : List PluginConfiguration) :
    (plugins.flatMap (pluginEntries rel)).length = outputCount plugins := by
  induction plugins with
  | nil => rfl
  | cons p ps ih =>
    simp only [outputCount] at ih ⊢
    simp [List.flatMap_cons, ih, length_pluginEntries]

theorem getElem?_middle {α : Type} (A B₁ B₂ C : List α) (x : α) (n : Nat)
    (hn : n = A.length + B₁.length) :
    (A ++ (B₁ ++ x :: B₂) ++ C)[n]? = some x := by
  subst hn
  have h : A ++ (B₁ ++ x :: B₂) ++ C = (A ++ B₁) ++ x :: (B₂ ++ C) := by simp
  rw [h, List.getElem?_append_right (by simp)]
  simp

theorem pluginEntries_of_no_mappings (rel : Str) (p : PluginConfiguration)
    (hm : p.Mappings = []) : pluginEntries rel p = p.Outputs.map (fileEntry rel) := by
  simp [pluginEntries, hm]

theorem pluginWrites_of_no_mappings (rel : Str) (p : PluginConfiguration)
    (hm : p.Mappings = []) : pluginWrites rel p = p.Outputs.flatMap (fileWrites rel) := by
  simp [pluginWrites, hm]

theorem pluginEntries_of_mappings (rel : Str) (p : PluginConfiguration)
    (hm : p.Mappings ≠ []) : pluginEntries rel p = p.Outputs := by
  have : p.Mappings.length > 0 := List.length_pos.mpr hm
  simp [pluginEntries, this]

theorem pluginWrites_of_mappings (rel : Str) (p : PluginConfiguration)
    (hm : p.Mappings ≠ []) : pluginWrites rel p = p.Mappings := by
  have : p.Mappings.length > 0 := List.length_pos.mpr hm
  simp [pluginWrites, this]

theorem fileDir_of_ne_nil (rel f : Str) (hrel : rel ≠ []) : fileDir rel f = path.Dir f := by
  simp [fileDir, hrel]

theorem not_mem_keys_flatMap (rel : Str) (post : List PluginConfiguration) (k : Str)
    (h : ∀ q ∈ post, k ∉ pluginKeys rel q) :
    k ∉ GoMap.keys (post.flatMap (pluginWrites rel)) := by
  induction post with
  | nil => simp [GoMap.keys]
  | cons q qs ih =>
    have hq := h q (List.mem_cons_self _ _)
    have hqs := ih (fun q' hq' => h q' (List.mem_cons_of_mem _ hq'))
    simp only [pluginKeys, GoMap.keys] at hq hqs ⊢
    simp only [List.flatMap_cons, List.map_append, List.mem_append, not_or]
    exact ⟨hq, hqs⟩

theorem not_mem_keys_fileWrites (rel : Str) (fs : List Str) (k : Str)
    (h : ∀ g ∈ fs, fileDir rel g = rel ∨ path.Base g ≠ k) :
    k ∉ GoMap.keys (fs.flatMap (fileWrites rel)) := by
  induction fs with
  | nil => simp [GoMap.keys]
  | cons g gs ih =>
    have hg := h g (List.mem_cons_self _ _)
    have hgs := ih (fun g' hg' => h g' (List.mem_cons_of_mem _ hg'))
    simp only [GoMap.keys] at hgs ⊢
    simp only [List.flatMap_cons, List.map_append, List.mem_append, not_or]
    refine ⟨?_, hgs⟩
    unfold fileWrites
    rcases hg with hg | hg
    · simp [hg]
    · by_cases hd : fileDir rel g = rel
      · simp [hd]
      · simp only [hd, if_false, List.map_cons, List.map_nil, List.mem_singleton]
        exact fun e => hg e.symm

theorem fileWrites_eq_nil_of_dir (rel f : Str) (h : fileDir rel f = rel) :
    fileWrites rel f = [] := by
  simp [fileWrites, h]

theorem fileEntry_of_dir (rel f : Str) (h : fileDir rel f = rel) :
    fileEntry rel f = strings.TrimPrefix f (rel ++ ['/']) := by
  simp [fileEntry, h]

theorem fileWrites_of_not_dir (rel f : Str) (h : fileDir rel f ≠ rel) :
    fileWrites rel f = [(path.Base f, f)] := by
  simp [fileWrites, h]

theorem fileEntry_of_not_dir (rel f : Str) (h : fileDir rel f ≠ rel) :
    fileEntry rel f = path.Base f := by
  simp [fileEntry, h]

theorem HasPrefix_eq_append (s p : Str) (h : strings.HasPrefix s p = true) :
    s = p ++ s.drop p.length := by
  induction p generalizing s with
  | nil => simp
  | cons d p ih =>
    cases s with
    | nil => simp [strings.HasPrefix] at h
    | cons c s =>
      simp only [strings.HasPrefix, Bool.and_eq_true, decide_eq_true_eq] at h
      obtain ⟨rfl, h2⟩ := h
      simpa using ih s h2

theorem entries_all_in_dir (rel : Str) (plugins : List PluginConfiguration) (hrel : rel ≠ [])
    (hall : ∀ q ∈ plugins, q.Mappings = [] ∧ ∀ g ∈ q.Outputs, path.Dir g = rel) :
    plugins.flatMap (pluginEntries rel)
      = (plugins.flatMap (·.Outputs)).map (fun g => strings.TrimPrefix g (rel ++ ['/'])) := by
  induction plugins with
  | nil => rfl
  | cons q qs ih =>
    have hq := hall q (List.mem_cons_self _ _)
    rw [List.flatMap_cons, List.flatMap_cons, List.map_append,
      ← ih (fun q' hq' => hall q' (List.mem_cons_of_mem _ hq')),
      pluginEntries_of_no_mappings rel q hq.1]
    congr 1
    apply List.map_congr_left
    intro g hg
    exact fileEntry_of_dir rel g (by rw [fileDir_of_ne_nil rel g hrel, hq.2 g hg])

theorem writes_all_in_dir (rel : Str) (plugins : List PluginConfiguration) (hrel : rel ≠ [])
    (hall : ∀ q ∈ plugins, q.Mappings = [] ∧ ∀ g ∈ q.Outputs, path.Dir g = rel) :
    plugins.flatMap (pluginWrites rel) = [] := by
  induction plugins with
  | nil => rfl
  | cons q qs ih =>
    have hq := hall q (List.mem_cons_self _ _)
    rw [List.flatMap_cons, ih (fun q' hq' => hall q' (List.mem_cons_of_mem _ hq')),
      pluginWrites_of_no_mappings rel q hq.1, List.append_nil]
    rw [List.flatMap_eq_nil_iff]
    intro g hg
    exact fileWrites_eq_nil_of_dir rel g (by rw [fileDir_of_ne_nil rel g hrel, hq.2 g hg])

theorem getElem?_entries (rel : Str) (pre post : List PluginConfiguration)
    (p : PluginConfiguration) (fs₁ fs₂ : List Str) (f : Str) (hm : p.Mappings = [])
    (ho : p.Outputs = fs₁ ++ f :: fs₂) :
    ((pre ++ p :: post).flatMap (pluginEntries rel))[outputCount pre + fs₁.length]?
      = some (fileEntry rel f) := by
  rw [List.flatMap_append, List.flatMap_cons, pluginEntries_of_no_mappings rel p hm, ho,
    List.map_append, List.map_cons, ← List.append_assoc]
  exact getElem?_middle _ _ _ _ _ _ (by rw [length_flatMap_pluginEntries, List.length_map])

theorem writes_split (rel : Str) (pre post : List PluginConfiguration)
    (p : PluginConfiguration) (fs₁ fs₂ : List Str) (f : Str) (hm : p.Mappings = [])
    (ho : p.Outputs = fs₁ ++ f :: fs₂) :
    (pre ++ p :: post).flatMap (pluginWrites rel)
      = (pre.flatMap (pluginWrites rel) ++ fs₁.flatMap (fileWrites rel))
        ++ (fileWrites rel f
          ++ (fs₂.flatMap (fileWrites rel) ++ post.flatMap (pluginWrites rel))) := by
  rw [List.flatMap_append, List.flatMap_cons, pluginWrites_of_no_mappings rel p hm, ho,
    List.flatMap_append, List.flatMap_cons]
  simp

theorem writes_remove (rel : Str) (pre post : List PluginConfiguration)
    (p : PluginConfiguration) (fs₁ fs₂ : List Str) (hm : p.Mappings = []) :
    (pre ++ { p with Outputs := fs₁ ++ fs₂ } :: post).flatMap (pluginWrites rel)
      = (pre.flatMap (pluginWrites rel) ++ fs₁.flatMap (fileWrites rel))
        ++ (fs₂.flatMap (fileWrites rel) ++ post.flatMap (pluginWrites rel)) := by
  rw [List.flatMap_append, List.flatMap_cons,
    pluginWrites_of_no_mappings rel { p with Outputs := fs₁ ++ fs₂ } hm]
  simp

theorem read_copyMappings_congr (m m' l : GoMap) (k : Str) (h : m.read k = m'.read k) :
    (copyMappings m l).read k = (copyMappings m' l).read k := by
  induction l generalizing m m' with
  | nil => exact h
  | cons e l ih =>
    rw [copyMappings_cons, copyMappings_cons]
    apply ih
    rw [GoMap.read_write, GoMap.read_write, h]

/-- An assignment that is followed by an assignment to the same key leaves no
trace in the table. -/
theorem read_copyMappings_overwritten (m l₁ l₂ l₃ : GoMap) (b v₁ v₂ k : Str) :
    (copyMappings m (l₁ ++ (b, v₁) :: (l₂ ++ (b, v₂) :: l₃))).read k
      = (copyMappings m (l₁ ++ (l₂ ++ (b, v₂) :: l₃))).read k := by
  simp only [copyMappings_append, copyMappings_cons]
  apply read_copyMappings_congr
  rw [GoMap.read_write, GoMap.read_write]
  by_cases hk : b = k
  · simp [hk]
  · simp only [hk, if_false]
    apply read_copyMappings_congr
    exact GoMap.read_write_ne _ _ hk

theorem pluginEntries_eq_map (rel : Str) (p : PluginConfiguration) :
    pluginEntries rel p
      = p.Outputs.map (fun f =>
          if p.Mappings.length > 0 then f
          else if fileDir rel f = rel then strings.TrimPrefix f (rel ++ ['/'])
          else path.Base f) := by
  unfold pluginEntries
  by_cases h : p.Mappings.length > 0
  · simp [h]
  · simp only [h, if_false]
    rfl

theorem outputCount_eq_sum (plugins : List PluginConfiguration) :
    outputCount plugins = (plugins.map (fun p => p.Outputs.length)).sum := by
  induction plugins with
  | nil => rfl
  | cons p ps ih =>
    simp only [outputCount] at ih ⊢
    simp [List.flatMap_cons, ih]

theorem eq_take_cons_drop {α : Type} (l : List α) (i : Nat) (x : α) (h : l[i]? = some x) :
    l = l.take i ++ x :: l.drop (i + 1) ∧ (l.take i).length = i := by
  induction l generalizing i with
  | nil => simp at h
  | cons a l ih =>
    cases i with
    | zero =>
      have : a = x := by simpa using h
      simp [this]
    | succ i =>
      have h' : l[i]? = some x := by simpa using h
      obtain ⟨h1, h2⟩ := ih i h'
      refine ⟨?_, by simp [h2]⟩
      simp only [List.take_succ_cons, List.drop_succ_cons, List.cons_append]
      rw [← h1]

theorem forall₂_entries (rel : Str) (plugins : List PluginConfiguration) :
    List.Forall₂
      (fun f e => e = f ∨ e = strings.TrimPrefix f (rel ++ ['/']) ∨ e = path.Base f)
      (plugins.flatMap (·.Outputs)) (plugins.flatMap (pluginEntries rel)) := by
  induction plugins with
  | nil => exact List.Forall₂.nil
  | cons p ps ih =>
    rw [List.flatMap_cons, List.flatMap_cons]
    refine List.rel_append ?_ ih
    rw [pluginEntries_eq_map, List.forall₂_map_right_iff, List.forall₂_same]
    intro f _
    by_cases h : p.Mappings.length > 0
    · simp [h]
    · by_cases hd : fileDir rel f = rel
      · simp [h, hd]
      · simp [h, hd]

theorem mem_of_read_copyMappings (m l : GoMap) (k v : Str)
    (h : (copyMappings m l).read k = some v) : m.read k = some v ∨ (k, v) ∈ l := by
  induction l generalizing m with
  | nil => exact Or.inl h
  | cons e l ih =>
    obtain ⟨a, b⟩ := e
    rw [copyMappings_cons] at h
    rcases ih _ h with h' | h'
    · rw [GoMap.read_write] at h'
      by_cases hk : a = k
      · simp only [hk, if_true, Option.some.injEq] at h'
        subst hk
        subst h'
        exact Or.inr (List.mem_cons_self _ _)
      · simp only [hk, if_false] at h'
        exact Or.inl h'
    · exact Or.inr (List.mem_cons_of_mem _ h')

theorem key_eq_base_of_mem_writes (rel : Str) (plugins : List PluginConfiguration)
    (hall : ∀ q ∈ plugins, q.Mappings = []) (k v : Str)
    (h : (k, v) ∈ plugins.flatMap (pluginWrites rel)) : k = path.Base v := by
  rw [List.mem_flatMap] at h
  obtain ⟨q, hq, hkv⟩ := h
  rw [pluginWrites_of_no_mappings rel q (hall q hq), List.mem_flatMap] at hkv
  obtain ⟨g, _, hg⟩ := hkv
  unfold fileWrites at hg
  by_cases hd : fileDir rel g = rel
  · simp [hd] at hg
  · simp only [hd, if_false, List.mem_singleton, Prod.mk.injEq] at hg
    rw [hg.1, hg.2]

/-- In a merge of plugins without explicit mappings, a file whose basename is
sent to another file is the value of no key. -/
theorem no_trace (rel : Str) (plugins : List PluginConfiguration)
    (hall : ∀ q ∈ plugins, q.Mappings = []) (f₁ f₂ : Str) (hne : f₁ ≠ f₂)
    (hread : (copyMappings [] (plugins.flatMap (pluginWrites rel))).read (path.Base f₁)
      = some f₂) (k : Str) :
    (copyMappings [] (plugins.flatMap (pluginWrites rel))).read k ≠ some f₁ := by
  intro hk
  rcases mem_of_read_copyMappings _ _ _ _ hk with h | h
  · simp [GoMap.read] at h
  · have := key_eq_base_of_mem_writes rel plugins hall k f₁ h
    subst this
    rw [hread] at hk
    exact hne (Option.some.inj hk).symm

/-! ## The import merger -/

theorem foldl_append_imports (plugins : List PluginConfiguration) (init : List Str) :
    plugins.foldl (fun imports plugin => imports ++ plugin.Imports) init
      = init ++ plugins.flatMap (·.Imports) := by
  induction plugins generalizing init with
  | nil => simp
  | cons p ps ih => simp [ih, List.flatMap_cons]

/-- C1: the merged imports are sorted ascending and are a permutation of the
concatenation of the plugins' import lists in plugin order. -/
theorem mergeImports_sorted_perm (plugins : List PluginConfiguration) :
    List.Sorted (· ≤ ·) (mergeImports plugins) ∧
    List.Perm (mergeImports plugins) (plugins.flatMap (·.Imports)) ∧
    mergeImports [mkPlugin "go" [] ["b", "a"] [], mkPlugin "java" [] ["c"] []]
      = ["a".toList, "b".toList, "c".toList] := by
  refine ⟨?_, ?_, by decide⟩
  · exact List.sorted_insertionSort _ _
  · unfold mergeImports sort.Strings
    rw [foldl_append_imports]
    simpa using List.perm_insertionSort _ _

/-! ## The source merger: files of plugins without explicit mappings -/

/-- C2, as stated, fails: the file `foo//bar/a.java` has the directory
`foo/bar`, the target directory, yet the entry listed for it is the file name
itself and not a name `e` with `f = targetDir + "/" + e`. -/
theorem mergeSources_strip_counterexample :
    "foo/bar".toList ≠ [] ∧
    (mkPlugin "java" ["foo//bar/a.java"] [] []).Mappings = [] ∧
    path.Dir "foo//bar/a.java".toList = "foo/bar".toList ∧
    mergeSources [] "foo/bar".toList [mkPlugin "java" ["foo//bar/a.java"] [] []]
      = some (["foo//bar/a.java".toList], []) ∧
    "foo//bar/a.java".toList ≠ "foo/bar".toList ++ '/' :: "foo//bar/a.java".toList := by
  decide

/-- C2, amended: for a non-empty target directory, a plugin without mappings
and an output file `f` of it whose directory `path.Dir f` is the target
directory, the entry listed for `f` at its position is
`strings.TrimPrefix f (targetDir + "/")`: it satisfies
`f = targetDir + "/" + e` when `f` starts with `targetDir + "/"` and is `f`
itself otherwise; processing `f` leaves the mappings table as it is, the merged
table is the one obtained without `f`, and a plugin list made only of such
files yields an empty table. -/
theorem mergeSources_file_in_targetDir (workDir rel : Str)
    (pre post : List PluginConfiguration) (p : PluginConfiguration) (fs₁ fs₂ : List Str)
    (f : Str) (hrel : rel ≠ []) (hm : p.Mappings = []) (ho : p.Outputs = fs₁ ++ f :: fs₂)
    (hd : path.Dir f = rel) :
    ∃ outs m, mergeSources workDir rel (pre ++ p :: post) = some (outs, m) ∧
      outs[outputCount pre + fs₁.length]? = some (strings.TrimPrefix f (rel ++ ['/'])) ∧
      (strings.HasPrefix f (rel ++ ['/']) = true →
        f = rel ++ '/' :: strings.TrimPrefix f (rel ++ ['/'])) ∧
      (strings.HasPrefix f (rel ++ ['/']) = false → strings.TrimPrefix f (rel ++ ['/']) = f) ∧
      (∀ acc, (mergeFile rel acc f).2 = acc.2) ∧
      (∃ outs', mergeSources workDir rel (pre ++ { p with Outputs := fs₁ ++ fs₂ } :: post)
        = some (outs', m)) ∧
      (∀ plugins : List PluginConfiguration,
        (∀ q ∈ plugins, q.Mappings = [] ∧ ∀ g ∈ q.Outputs, path.Dir g = rel) →
        mergeSources workDir rel plugins
          = some ((plugins.flatMap (·.Outputs)).map
              (fun g => strings.TrimPrefix g (rel ++ ['/'])), [])) := by
  have hfd : fileDir rel f = rel := by rw [fileDir_of_ne_nil rel f hrel, hd]
  refine ⟨_, _, mergeSources_eq workDir rel (pre ++ p :: post), ?_, ?_, ?_, ?_, ?_, ?_⟩
  · rw [List.flatMap_append, List.flatMap_cons, pluginEntries_of_no_mappings rel p hm, ho,
      List.map_append, List.map_cons, fileEntry_of_dir rel f hfd, ← List.append_assoc]
    exact getElem?_middle _ _ _ _ _ _ (by rw [length_flatMap_pluginEntries, List.length_map])
  · intro h
    have := HasPrefix_eq_append f (rel ++ ['/']) h
    simpa [strings.TrimPrefix, h] using this
  · intro h
    simp [strings.TrimPrefix, h]
  · intro acc
    rw [mergeFile_eq, fileWrites_eq_nil_of_dir rel f hfd, copyMappings_nil]
  · refine ⟨(pre ++ { p with Outputs := fs₁ ++ fs₂ } :: post).flatMap (pluginEntries rel), ?_⟩
    rw [mergeSources_eq]
    have hw : (pre ++ { p with Outputs := fs₁ ++ fs₂ } :: post).flatMap (pluginWrites rel)
        = (pre ++ p :: post).flatMap (pluginWrites rel) := by
      simp only [List.flatMap_append, List.flatMap_cons]
      rw [pluginWrites_of_no_mappings rel p hm,
        pluginWrites_of_no_mappings rel { p with Outputs := fs₁ ++ fs₂ } hm, ho]
      simp [List.flatMap_append, List.flatMap_cons, fileWrites_eq_nil_of_dir rel f hfd]
    rw [hw]
  · intro plugins hall
    rw [mergeSources_eq]
    have he := entries_all_in_dir rel plugins hrel hall
    have hw := writes_all_in_dir rel plugins hrel hall
    rw [he, hw, copyMappings_nil]
    cases externalWorkspace workDir <;> rfl

/-- C2, at the example of the specification: the outputs `foo/bar/a.java`
and `foo/bar/b.java` with the target directory `foo/bar`. -/
theorem mergeSources_file_in_targetDir_witness :
    "foo/bar".toList ≠ [] ∧
    (mkPlugin "java" ["foo/bar/a.java", "foo/bar/b.java"] [] []).Mappings = [] ∧
    path.Dir "foo/bar/a.java".toList = "foo/bar".toList ∧
    mergeSources [] "foo/bar".toList
        [mkPlugin "java" ["foo/bar/a.java", "foo/bar/b.java"] [] []]
      = some (["a.java".toList, "b.java".toList], []) :=
  ⟨by decide, by decide, by decide, by
    obtain ⟨_, _, _, _, _, _, _, _, h⟩ :=
      mergeSources_file_in_targetDir [] "foo/bar".toList [] []
        (mkPlugin "java" ["foo/bar/a.java", "foo/bar/b.java"] [] []) []
        ["foo/bar/b.java".toList] "foo/bar/a.java".toList
        (by decide) (by decide) (by decide) (by decide)
    rw [h _ (by decide)]
    decide⟩

/-- C3: without an external rewrite, for a plugin without mappings and an
output file `f` of it whose directory differs from the target directory (`.`
counting as the empty target directory), the merged outputs have one entry per
output file and hold the basename `path.Base f` at the position of `f`; when no
file or plugin processed later assigns that key, the merged mappings send
`path.Base f` to `f`. -/
theorem mergeSources_file_outside_targetDir (workDir rel : Str)
    (pre post : List PluginConfiguration) (p : PluginConfiguration) (fs₁ fs₂ : List Str)
    (f : Str) (hw : externalWorkspace workDir = none) (hm : p.Mappings = [])
    (ho : p.Outputs = fs₁ ++ f :: fs₂) (hd : fileDir rel f ≠ rel) :
    ∃ outs m, mergeSources workDir rel (pre ++ p :: post) = some (outs, m) ∧
      outs.length = outputCount (pre ++ p :: post) ∧
      outs[outputCount pre + fs₁.length]? = some (path.Base f) ∧
      ((∀ g ∈ fs₂, fileDir rel g = rel ∨ path.Base g ≠ path.Base f) →
        (∀ q ∈ post, path.Base f ∉ pluginKeys rel q) →
        m.read (path.Base f) = some f) := by
  refine ⟨_, _, mergeSources_eq workDir rel (pre ++ p :: post), ?_, ?_, ?_⟩
  · exact length_flatMap_pluginEntries rel _
  · rw [List.flatMap_append, List.flatMap_cons, pluginEntries_of_no_mappings rel p hm, ho,
      List.map_append, List.map_cons, fileEntry_of_not_dir rel f hd, ← List.append_assoc]
    exact getElem?_middle _ _ _ _ _ _ (by rw [length_flatMap_pluginEntries, List.length_map])
  · intro hfs hpost
    rw [hw]
    have hsplit : (pre ++ p :: post).flatMap (pluginWrites rel)
        = (pre.flatMap (pluginWrites rel) ++ fs₁.flatMap (fileWrites rel))
          ++ (path.Base f, f)
            :: (fs₂.flatMap (fileWrites rel) ++ post.flatMap (pluginWrites rel)) := by
      rw [List.flatMap_append, List.flatMap_cons, pluginWrites_of_no_mappings rel p hm, ho,
        List.flatMap_append, List.flatMap_cons, fileWrites_of_not_dir rel f hd]
      simp
    rw [hsplit]
    apply read_copyMappings_last
    have h1 := not_mem_keys_fileWrites rel fs₂ (path.Base f) hfs
    have h2 := not_mem_keys_flatMap rel post (path.Base f) hpost
    simp only [GoMap.keys, List.map_append, List.mem_append, not_or] at h1 h2 ⊢
    exact ⟨h1, h2⟩

/-- C3, at the example of the specification: the output `foo/other/c.java`
with the target directory `foo/bar`. -/
theorem mergeSources_file_outside_targetDir_witness :
    externalWorkspace [] = none ∧
    fileDir "foo/bar".toList "foo/other/c.java".toList ≠ "foo/bar".toList ∧
    mergeSources [] "foo/bar".toList [mkPlugin "java" ["foo/other/c.java"] [] []]
      = some (["c.java".toList], [("c.java".toList, "foo/other/c.java".toList)]) ∧
    ∃ outs m, mergeSources [] "foo/bar".toList [mkPlugin "java" ["foo/other/c.java"] [] []]
        = some (outs, m) ∧
      outs[0]? = some "c.java".toList ∧
      m.read "c.java".toList = some "foo/other/c.java".toList :=
  ⟨by decide, by decide, by decide, by
    obtain ⟨outs, m, h1, _, h3, h4⟩ :=
      mergeSources_file_outside_targetDir [] "foo/bar".toList [] []
        (mkPlugin "java" ["foo/other/c.java"] [] []) [] [] "foo/other/c.java".toList
        (by decide) (by decide) (by decide) (by decide)
    exact ⟨outs, m, h1, h3, h4 (by decide) (by decide)⟩⟩

/-! ## The source merger: plugins with explicit mappings -/

/-- C4, as stated, fails: the first plugin has the explicit entry
`a.go ↦ x/a.go`, but the second plugin assigns the same key later, so the
merged table does not contain the first plugin's entry. -/
theorem mergeSources_explicit_counterexample :
    externalWorkspace [] = none ∧
    (mkPlugin "a" ["x/a.go"] [] [("a.go", "x/a.go")]).Mappings ≠ [] ∧
    ("a.go".toList, "x/a.go".toList) ∈ (mkPlugin "a" ["x/a.go"] [] [("a.go", "x/a.go")]).Mappings ∧
    mergeSources [] []
        [mkPlugin "a" ["x/a.go"] [] [("a.go", "x/a.go")],
         mkPlugin "b" ["y/a.go"] [] [("a.go", "y/a.go")]]
      = some (["x/a.go".toList, "y/a.go".toList], [("a.go".toList, "y/a.go".toList)]) ∧
    GoMap.read [("a.go".toList, "y/a.go".toList)] "a.go".toList ≠ some "x/a.go".toList := by
  decide

/-- C4, amended: without an external rewrite, a plugin whose mappings table is
not empty contributes its outputs verbatim as a contiguous run at its position
in the merged outputs, and the merged mappings contain each of its entries
`(k, v)` as `mappings[k] = v` provided no plugin or file processed later
assigns the key `k`; a single such plugin yields its own outputs and its own
mappings.  The hypothesis `hwf` says that the plugin's table is a Go map: no key
occurs twice in it. -/
theorem mergeSources_explicit_mappings (workDir rel : Str)
    (pre post : List PluginConfiguration) (p : PluginConfiguration)
    (hw : externalWorkspace workDir = none) (hm : p.Mappings ≠ [])
    (hwf : GoMap.WF p.Mappings) :
    (∃ outs m, mergeSources workDir rel (pre ++ p :: post) = some (outs, m) ∧
      (outs.drop (outputCount pre)).take p.Outputs.length = p.Outputs ∧
      (∀ k v, (k, v) ∈ p.Mappings → (∀ q ∈ post, k ∉ pluginKeys rel q) →
        m.read k = some v)) ∧
    mergeSources workDir rel [p] = some (p.Outputs, p.Mappings) := by
  refine ⟨⟨_, _, mergeSources_eq workDir rel (pre ++ p :: post), ?_, ?_⟩, ?_⟩
  · rw [List.flatMap_append, List.flatMap_cons, pluginEntries_of_mappings rel p hm,
      List.drop_left' (length_flatMap_pluginEntries rel pre), List.take_left' rfl]
  · intro k v hkv hpost
    rw [hw]
    obtain ⟨l₁, l₂, hl⟩ := List.append_of_mem hkv
    have hk : k ∉ GoMap.keys l₂ := by
      unfold GoMap.WF GoMap.keys at hwf
      rw [hl, List.map_append, List.map_cons, List.nodup_append] at hwf
      exact (List.nodup_cons.mp hwf.2.1).1
    have hsplit : (pre ++ p :: post).flatMap (pluginWrites rel)
        = (pre.flatMap (pluginWrites rel) ++ l₁)
          ++ (k, v) :: (l₂ ++ post.flatMap (pluginWrites rel)) := by
      rw [List.flatMap_append, List.flatMap_cons, pluginWrites_of_mappings rel p hm, hl]
      simp
    rw [hsplit]
    apply read_copyMappings_last
    have h2 := not_mem_keys_flatMap rel post k hpost
    simp only [GoMap.keys, List.map_append, List.mem_append, not_or] at hk h2 ⊢
    exact ⟨hk, h2⟩
  · rw [mergeSources_eq, hw]
    simp only [List.flatMap_cons, List.flatMap_nil, List.append_nil]
    rw [pluginEntries_of_mappings rel p hm, pluginWrites_of_mappings rel p hm,
      copyMappings_of_WF [] p.Mappings (by simpa using hwf)]
    rfl

/-- C4, amended, at a plugin with explicit mappings followed by a plugin
without: the outputs of the first are kept verbatim and its entry is in the
merged table. -/
theorem mergeSources_explicit_mappings_witness :
    externalWorkspace [] = none ∧
    (mkPlugin "a" ["x/a.go", "b.go"] [] [("a.go", "x/a.go")]).Mappings ≠ [] ∧
    GoMap.WF (mkPlugin "a" ["x/a.go", "b.go"] [] [("a.go", "x/a.go")]).Mappings ∧
    (∃ outs m, mergeSources [] []
          [mkPlugin "a" ["x/a.go", "b.go"] [] [("a.go", "x/a.go")],
           mkPlugin "b" ["y/c.go"] [] []] = some (outs, m) ∧
        outs.take 2 = ["x/a.go".toList, "b.go".toList] ∧
        m.read "a.go".toList = some "x/a.go".toList) ∧
    mergeSources [] [] [mkPlugin "a" ["x/a.go", "b.go"] [] [("a.go", "x/a.go")]]
      = some (["x/a.go".toList, "b.go".toList], [("a.go".toList, "x/a.go".toList)]) :=
  ⟨by decide, by decide, by decide, by
    obtain ⟨⟨outs, m, h1, h2, h3⟩, _⟩ :=
      mergeSources_explicit_mappings [] [] []
        [mkPlugin "b" ["y/c.go"] [] []]
        (mkPlugin "a" ["x/a.go", "b.go"] [] [("a.go", "x/a.go")])
        (by decide) (by decide) (by decide)
    exact ⟨outs, m, h1, h2, h3 _ _ (by decide) (by decide)⟩,
   (mergeSources_explicit_mappings [] [] [] []
        (mkPlugin "a" ["x/a.go", "b.go"] [] [("a.go", "x/a.go")])
        (by decide) (by decide) (by decide)).2⟩

/-! ## The external rewrite -/

theorem Join_external (ws v : Str) :
    path.Join ["external".toList, ws, v]
      = path.Clean ("external/".toList ++ ws ++ '/' :: v) := by
  simp [path.Join, path.joinSlash, List.dropWhile]

theorem externalWorkspace_of_split (workDir : Str) (segs : List Str) (ws : Str)
    (hs : strings.Split workDir = segs ++ ["external".toList, ws]) :
    externalWorkspace workDir = some ws := by
  have hne : workDir ≠ [] := by
    rintro rfl
    have := congrArg List.length hs
    simp [strings.Split] at this
  unfold externalWorkspace
  simp only [hs]
  have hlen : (segs ++ ["external".toList, ws]).length = segs.length + 2 := by simp
  have h2 : (segs ++ ["external".toList, ws])[segs.length + 2 - 2]? = some "external".toList := by
    rw [List.getElem?_append_right (by omega)]
    simp
  have h1 : (segs ++ ["external".toList, ws])[segs.length + 2 - 1]? = some ws := by
    rw [List.getElem?_append_right (by omega)]
    have : segs.length + 2 - 1 - segs.length = 1 := by omega
    rw [this]
    rfl
  rw [hlen, if_pos ⟨hne, by omega, h2⟩, h1]

/-- C5, as stated, fails: the mapping value `./gen/c.java` becomes
`external/ws/gen/c.java`, which is not `external/ws/` followed by the value. -/
theorem mergeSources_external_counterexample :
    strings.Split "/tmp/external/ws".toList
      = ["".toList, "tmp".toList] ++ ["external".toList, "ws".toList] ∧
    mergeSources [] [] [mkPlugin "java" ["./gen/c.java"] [] []]
      = some (["c.java".toList], [("c.java".toList, "./gen/c.java".toList)]) ∧
    mergeSources "/tmp/external/ws".toList [] [mkPlugin "java" ["./gen/c.java"] [] []]
      = some (["c.java".toList], [("c.java".toList, "external/ws/gen/c.java".toList)]) ∧
    "external/ws/gen/c.java".toList
      ≠ "external/".toList ++ "ws".toList ++ '/' :: "./gen/c.java".toList := by
  decide

/-- C5, amended: when the last two segments of the work directory are
`external` and `ws`, the merge returns the same outputs and the same keys as
with the empty work directory, and every key `k` has the value
`path.Join("external", ws, v)`, where `v` is the value of `k` with the empty
work directory; that value is the cleaned form (`path.Clean`) of
`"external/" + ws + "/" + v`, hence this very string whenever it is already
clean, as it is when `ws` is a plain path element and `v` is made of plain
path elements separated by single slashes.  Every value is rewritten, and
exactly once. -/
theorem mergeSources_external_rewrite (workDir rel : Str) (plugins : List PluginConfiguration)
    (segs : List Str) (ws : Str)
    (hs : strings.Split workDir = segs ++ ["external".toList, ws]) :
    ∃ outs m m₀, mergeSources workDir rel plugins = some (outs, m) ∧
      mergeSources [] rel plugins = some (outs, m₀) ∧
      m = m₀.map (fun kv => (kv.1, path.Join ["external".toList, ws, kv.2])) ∧
      GoMap.keys m = GoMap.keys m₀ ∧
      (∀ k, m.read k = (m₀.read k).map (fun v => path.Join ["external".toList, ws, v])) ∧
      (∀ v, path.Join ["external".toList, ws, v]
          = path.Clean ("external/".toList ++ ws ++ '/' :: v)) ∧
      (∀ k v, m₀.read k = some v →
        path.Clean ("external/".toList ++ ws ++ '/' :: v) = "external/".toList ++ ws ++ '/' :: v →
        m.read k = some ("external/".toList ++ ws ++ '/' :: v)) ∧
      (∀ k elems, m₀.read k = some (path.joinSlash elems) → elems ≠ [] →
        (∀ e ∈ elems, plainElem e) → plainElem ws →
        m.read k = some ("external/".toList ++ ws ++ '/' :: path.joinSlash elems)) := by
  have he := externalWorkspace_of_split workDir segs ws hs
  have h0 : externalWorkspace [] = none := by decide
  refine ⟨_, _, copyMappings [] (plugins.flatMap (pluginWrites rel)),
    mergeSources_eq workDir rel plugins, ?_, ?_, ?_, ?_, Join_external ws, ?_, ?_⟩
  · rw [mergeSources_eq, h0]
  · rw [he]
  · rw [he]
    exact GoMap.keys_map_values (fun v => path.Join ["external".toList, ws, v]) _
  · intro k
    rw [he]
    exact GoMap.read_map_values (fun v => path.Join ["external".toList, ws, v]) _ k
  · intro k v hk hc
    rw [he]
    simp only
    rw [GoMap.read_map_values (fun v => path.Join ["external".toList, ws, v]), hk,
      Option.map_some', Join_external, hc]
  · intro k elems hk hne hall hws
    rw [he]
    simp only
    rw [GoMap.read_map_values (fun v => path.Join ["external".toList, ws, v]), hk,
      Option.map_some', Join_external]
    have hj : "external/".toList ++ ws ++ '/' :: path.joinSlash elems
        = path.joinSlash ("external".toList :: ws :: elems) := by
      cases elems with
      | nil => exact absurd rfl hne
      | cons e es => simp [path.joinSlash]
    rw [hj, Clean_joinSlash _ (List.cons_ne_nil _ _)]
    intro e hmem
    rcases List.mem_cons.mp hmem with h | h
    · rw [h]
      decide
    · rcases List.mem_cons.mp h with h | h
      · rw [h]
        exact hws
      · exact hall e h

/-- C5, amended, at the example of the specification: the work directory
`/tmp/_x/hash/external/com_google_protobuf`. -/
theorem mergeSources_external_rewrite_witness :
    strings.Split "/tmp/_x/hash/external/com_google_protobuf".toList
      = ["".toList, "tmp".toList, "_x".toList, "hash".toList]
        ++ ["external".toList, "com_google_protobuf".toList] ∧
    ∃ outs m, mergeSources "/tmp/_x/hash/external/com_google_protobuf".toList "foo/bar".toList
        [mkPlugin "java" ["foo/other/c.java"] [] []] = some (outs, m) ∧
      m.read "c.java".toList = some "external/com_google_protobuf/foo/other/c.java".toList :=
  ⟨by decide, by
    obtain ⟨outs, m, m₀, h1, h2, _, _, _, _, _, h8⟩ :=
      mergeSources_external_rewrite "/tmp/_x/hash/external/com_google_protobuf".toList
        "foo/bar".toList [mkPlugin "java" ["foo/other/c.java"] [] []]
        ["".toList, "tmp".toList, "_x".toList, "hash".toList] "com_google_protobuf".toList
        (by decide)
    have hm₀ : m₀ = [("c.java".toList, "foo/other/c.java".toList)] := by
      have h : mergeSources [] "foo/bar".toList [mkPlugin "java" ["foo/other/c.java"] [] []]
          = some (["c.java".toList], [("c.java".toList, "foo/other/c.java".toList)]) := by
        decide
      rw [h] at h2
      exact (congrArg Prod.snd (Option.some.inj h2)).symm
    subst hm₀
    exact ⟨outs, m, h1, h8 "c.java".toList ["foo".toList, "other".toList, "c.java".toList]
      (by decide) (by decide) (by decide) (by decide)⟩⟩

theorem externalWorkspace_eq_none (workDir : Str)
    (h : workDir = [] ∨ (strings.Split workDir).length < 2 ∨
      (strings.Split workDir)[(strings.Split workDir).length - 2]? ≠ some "external".toList) :
    externalWorkspace workDir = none := by
  unfold externalWorkspace
  simp only
  rw [if_neg]
  rintro ⟨h1, h2, h3⟩
  rcases h with h | h | h
  · exact h1 h
  · omega
  · exact h h3

/-- C6: for a work directory that is empty, has fewer than two segments, or
whose second-to-last segment is not `external`, the merge returns a result, and
it is the result for the empty work directory: the same outputs and the same
mappings table. -/
theorem mergeSources_non_external (workDir rel : Str) (plugins : List PluginConfiguration)
    (h : workDir = [] ∨ (strings.Split workDir).length < 2 ∨
      (strings.Split workDir)[(strings.Split workDir).length - 2]? ≠ some "external".toList) :
    mergeSources workDir rel plugins = mergeSources [] rel plugins ∧
    ∃ outs m, mergeSources workDir rel plugins = some (outs, m) ∧
      outs = (mergeLoop rel plugins ([], [])).1 ∧ m = (mergeLoop rel plugins ([], [])).2 := by
  have he := externalWorkspace_eq_none workDir h
  have h0 : externalWorkspace [] = none := by decide
  refine ⟨?_, _, _, mergeSources_eq workDir rel plugins, ?_, ?_⟩
  · rw [mergeSources_eq, mergeSources_eq, he, h0]
  · rw [mergeLoop_eq]
    rfl
  · rw [he, mergeLoop_eq]

/-- C6, at three work directories: a single segment `external`, a path whose
last segment is `external`, and an ordinary path. -/
theorem mergeSources_non_external_witness :
    (strings.Split "external".toList).length < 2 ∧
    (strings.Split "/tmp/ws/external".toList)[
      (strings.Split "/tmp/ws/external".toList).length - 2]? ≠ some "external".toList ∧
    mergeSources "external".toList "foo/bar".toList [mkPlugin "java" ["foo/other/c.java"] [] []]
      = mergeSources [] "foo/bar".toList [mkPlugin "java" ["foo/other/c.java"] [] []] ∧
    mergeSources "/tmp/ws/external".toList "foo/bar".toList
        [mkPlugin "java" ["foo/other/c.java"] [] []]
      = mergeSources [] "foo/bar".toList [mkPlugin "java" ["foo/other/c.java"] [] []] :=
  ⟨by decide, by decide,
   (mergeSources_non_external "external".toList "foo/bar".toList
      [mkPlugin "java" ["foo/other/c.java"] [] []] (Or.inr (Or.inl (by decide)))).1,
   (mergeSources_non_external "/tmp/ws/external".toList "foo/bar".toList
      [mkPlugin "java" ["foo/other/c.java"] [] []] (Or.inr (Or.inr (by decide)))).1⟩

/-! ## The lookups by implementation name -/

theorem scanPlugins_eq_none_iff (name : Str) (plugins : List PluginConfiguration) :
    scanPlugins name plugins = none ↔ ∀ p ∈ plugins, p.Config.Implementation ≠ name := by
  induction plugins with
  | nil => simp [scanPlugins]
  | cons q qs ih =>
    by_cases h : q.Config.Implementation = name
    · simp [scanPlugins, h]
    · simp [scanPlugins, h, ih]

theorem scanPlugins_eq_some_iff (name : Str) (plugins : List PluginConfiguration)
    (p : PluginConfiguration) :
    scanPlugins name plugins = some p ↔
      ∃ i : Nat, plugins[i]? = some p ∧ p.Config.Implementation = name ∧
        ∀ j < i, ∀ q : PluginConfiguration, plugins[j]? = some q →
          q.Config.Implementation ≠ name := by
  induction plugins with
  | nil => simp [scanPlugins]
  | cons q qs ih =>
    by_cases h : q.Config.Implementation = name
    · simp only [scanPlugins, h, if_true, Option.some.injEq]
      constructor
      · rintro rfl
        exact ⟨0, by simp, h, fun j hj => absurd hj (Nat.not_lt_zero j)⟩
      · rintro ⟨i, hi, _, hmin⟩
        cases i with
        | zero => simpa using hi
        | succ i => exact absurd h (hmin 0 (Nat.succ_pos i) q (by simp))
    · simp only [scanPlugins, h, if_false, ih]
      constructor
      · rintro ⟨i, hi, hp, hmin⟩
        refine ⟨i + 1, by simpa using hi, hp, ?_⟩
        intro j hj r hr
        cases j with
        | zero =>
          have : q = r := by simpa using hr
          exact this ▸ h
        | succ j => exact hmin j (by omega) r (by simpa using hr)
      · rintro ⟨i, hi, hp, hmin⟩
        cases i with
        | zero =>
          have : q = p := by simpa using hi
          exact absurd (this ▸ hp) h
        | succ i =>
          refine ⟨i, by simpa using hi, hp, ?_⟩
          intro j hj r hr
          exact hmin (j + 1) (by omega) r (by simpa using hr)

/-- C7: `GetPluginConfiguration` returns the nil result exactly when no plugin
of the configuration has the implementation name, and otherwise the plugin at
the smallest index whose implementation name is equal to the name; the
comparison is exact, so `python` and `Go` are absent from a list holding `go`
and `java`. -/
theorem GetPluginConfiguration_first_match {LC PL : Type} (c : ProtocConfiguration LC PL)
    (name : Str) :
    (c.GetPluginConfiguration name = none ↔
      ∀ p ∈ c.Plugins, p.Config.Implementation ≠ name) ∧
    (∀ p, c.GetPluginConfiguration name = some p ↔
      ∃ i : Nat, c.Plugins[i]? = some p ∧ p.Config.Implementation = name ∧
        ∀ j < i, ∀ q : PluginConfiguration, c.Plugins[j]? = some q →
          q.Config.Implementation ≠ name) ∧
    scanPlugins "python".toList
      [mkPlugin "go" [] ["b", "a"] [], mkPlugin "java" [] ["c"] []] = none ∧
    scanPlugins "Go".toList
      [mkPlugin "go" [] ["b", "a"] [], mkPlugin "java" [] ["c"] []] = none ∧
    scanPlugins "java".toList
      [mkPlugin "go" [] ["b", "a"] [], mkPlugin "java" [] ["c"] [],
       mkPlugin "java" ["x"] [] []] = some (mkPlugin "java" [] ["c"] []) :=
  ⟨scanPlugins_eq_none_iff name c.Plugins, scanPlugins_eq_some_iff name c.Plugins,
    by decide, by decide, by decide⟩

theorem newProtocConfiguration_eq {LC PL : Type} (lc : LC) (workDir rel pfx : Str) (lib : PL)
    (plugins : List PluginConfiguration) :
    ∃ outs m, mergeSources workDir rel plugins = some (outs, m) ∧
      newProtocConfiguration lc workDir rel pfx lib plugins
        = some {
            LanguageConfig := lc
            Rel := rel
            Prefix := pfx
            Library := lib
            Plugins := plugins
            Outputs := outs
            Imports := mergeImports plugins
            Mappings := m } := by
  refine ⟨_, _, mergeSources_eq workDir rel plugins, ?_⟩
  unfold newProtocConfiguration
  rw [mergeSources_eq]
  rfl

theorem scanPlugins_first (name : Str) (pre post : List PluginConfiguration)
    (p : PluginConfiguration) (hp : p.Config.Implementation = name)
    (hpre : ∀ q ∈ pre, q.Config.Implementation ≠ name) :
    scanPlugins name (pre ++ p :: post) = some p := by
  induction pre with
  | nil => simp [scanPlugins, hp]
  | cons q qs ih =>
    have hq := hpre q (List.mem_cons_self _ _)
    simp only [List.cons_append, scanPlugins, hq, if_false]
    exact ih (fun q' hq' => hpre q' (List.mem_cons_of_mem _ hq'))

/-- C8: on a configuration built by `newProtocConfiguration`,
`GetPluginOutputs name` is the own, unchanged `Outputs` list of the plugin that
`GetPluginConfiguration name` returns, that is of the first plugin with this
implementation name, and the empty (nil) list when no plugin has the name; it
is not the merged list: for the output `foo/bar/a.java` and the target
directory `foo/bar` the merged outputs hold `a.java` and the lookup returns
`foo/bar/a.java`. -/
theorem GetPluginOutputs_own_outputs {LC PL : Type} (lc : LC) (workDir rel pfx : Str) (lib : PL)
    (plugins : List PluginConfiguration) (name : Str) :
    (∃ c, newProtocConfiguration lc workDir rel pfx lib plugins = some c ∧
      c.Plugins = plugins ∧
      c.GetPluginOutputs name
        = (match c.GetPluginConfiguration name with
          | none => []
          | some p => p.Outputs) ∧
      ((∀ p ∈ plugins, p.Config.Implementation ≠ name) →
        c.GetPluginConfiguration name = none ∧ c.GetPluginOutputs name = []) ∧
      (∀ pre p post, plugins = pre ++ p :: post → p.Config.Implementation = name →
        (∀ q ∈ pre, q.Config.Implementation ≠ name) →
        c.GetPluginConfiguration name = some p ∧ c.GetPluginOutputs name = p.Outputs)) ∧
    (∃ c, newProtocConfiguration () [] "foo/bar".toList "java".toList ()
          [mkPlugin "java" ["foo/bar/a.java"] [] []] = some c ∧
      c.Outputs = ["a.java".toList] ∧
      c.GetPluginOutputs "java".toList = ["foo/bar/a.java".toList] ∧
      c.GetPluginOutputs "go".toList = []) := by
  constructor
  · obtain ⟨outs, m, _, hc⟩ := newProtocConfiguration_eq lc workDir rel pfx lib plugins
    refine ⟨_, hc, rfl, rfl, ?_, ?_⟩
    · intro hall
      have h := (scanPlugins_eq_none_iff name plugins).mpr hall
      simp only [ProtocConfiguration.GetPluginOutputs,
        ProtocConfiguration.GetPluginConfiguration, h, and_self]
    · intro pre p post hpl hp hpre
      have h := scanPlugins_first name pre post p hp hpre
      rw [← hpl] at h
      simp only [ProtocConfiguration.GetPluginOutputs,
        ProtocConfiguration.GetPluginConfiguration, h, and_self]
  · exact ⟨_, rfl, by decide, by decide, by decide⟩

/-! ## Collisions of basenames -/

/-- C9: last write wins.  Without an external rewrite, let `f₁` and `f₂` be
output files with the same basename `b` and directories that differ from the
target directory, `f₁` processed before `f₂`, either in one plugin or in two
plugins, without explicit mappings, and let no later file or plugin assign the
key `b`.  Then the merge returns a result (no error), the merged mappings send
`b` to `f₂`, the table reads at every key as the table of the same merge without
`f₁` (no trace of `f₁`), and the merged outputs hold `b` at the position of
each of the two files; when moreover no plugin of the list has explicit
mappings and the two paths differ, `f₁` is the value of no key. -/
theorem mergeSources_last_write_wins (workDir rel f₁ f₂ : Str)
    (hw : externalWorkspace workDir = none) (hb : path.Base f₁ = path.Base f₂)
    (hd₁ : fileDir rel f₁ ≠ rel) (hd₂ : fileDir rel f₂ ≠ rel) :
    (∀ (pre post : List PluginConfiguration) (p : PluginConfiguration) (fs₁ fs₂ fs₃ : List Str),
      p.Mappings = [] → p.Outputs = fs₁ ++ f₁ :: (fs₂ ++ f₂ :: fs₃) →
      (∀ g ∈ fs₃, fileDir rel g = rel ∨ path.Base g ≠ path.Base f₂) →
      (∀ q ∈ post, path.Base f₂ ∉ pluginKeys rel q) →
      ∃ outs m, mergeSources workDir rel (pre ++ p :: post) = some (outs, m) ∧
        m.read (path.Base f₂) = some f₂ ∧
        outs[outputCount pre + fs₁.length]? = some (path.Base f₂) ∧
        outs[outputCount pre + (fs₁.length + 1 + fs₂.length)]? = some (path.Base f₂) ∧
        (∃ outs' m', mergeSources workDir rel
            (pre ++ { p with Outputs := fs₁ ++ (fs₂ ++ f₂ :: fs₃) } :: post) = some (outs', m') ∧
          ∀ k, m.read k = m'.read k) ∧
        ((∀ q ∈ pre ++ post, q.Mappings = []) → f₁ ≠ f₂ → ∀ k, m.read k ≠ some f₁)) ∧
    (∀ (pre mid post : List PluginConfiguration) (p₁ p₂ : PluginConfiguration)
        (a₁ a₂ b₁ b₂ : List Str),
      p₁.Mappings = [] → p₂.Mappings = [] →
      p₁.Outputs = a₁ ++ f₁ :: a₂ → p₂.Outputs = b₁ ++ f₂ :: b₂ →
      (∀ g ∈ b₂, fileDir rel g = rel ∨ path.Base g ≠ path.Base f₂) →
      (∀ q ∈ post, path.Base f₂ ∉ pluginKeys rel q) →
      ∃ outs m, mergeSources workDir rel (pre ++ p₁ :: (mid ++ p₂ :: post)) = some (outs, m) ∧
        m.read (path.Base f₂) = some f₂ ∧
        outs[outputCount pre + a₁.length]? = some (path.Base f₂) ∧
        outs[outputCount (pre ++ p₁ :: mid) + b₁.length]? = some (path.Base f₂) ∧
        (∃ outs' m', mergeSources workDir rel
            (pre ++ { p₁ with Outputs := a₁ ++ a₂ } :: (mid ++ p₂ :: post)) = some (outs', m') ∧
          ∀ k, m.read k = m'.read k) ∧
        ((∀ q ∈ pre ++ (mid ++ post), q.Mappings = []) → f₁ ≠ f₂ →
          ∀ k, m.read k ≠ some f₁)) := by
  constructor
  · intro pre post p fs₁ fs₂ fs₃ hm ho hfs hpost
    have hnot : path.Base f₂ ∉ GoMap.keys
        (fs₃.flatMap (fileWrites rel) ++ post.flatMap (pluginWrites rel)) := by
      have h1 := not_mem_keys_fileWrites rel fs₃ (path.Base f₂) hfs
      have h2 := not_mem_keys_flatMap rel post (path.Base f₂) hpost
      simp only [GoMap.keys, List.map_append, List.mem_append, not_or] at h1 h2 ⊢
      exact ⟨h1, h2⟩
    have hW : (pre ++ p :: post).flatMap (pluginWrites rel)
        = (pre.flatMap (pluginWrites rel) ++ fs₁.flatMap (fileWrites rel))
          ++ (path.Base f₂, f₁) :: (fs₂.flatMap (fileWrites rel)
            ++ (path.Base f₂, f₂)
              :: (fs₃.flatMap (fileWrites rel) ++ post.flatMap (pluginWrites rel))) := by
      rw [writes_split rel pre post p fs₁ _ f₁ hm ho, fileWrites_of_not_dir rel f₁ hd₁, hb,
        List.flatMap_append, List.flatMap_cons, fileWrites_of_not_dir rel f₂ hd₂]
      simp
    have hW' : (pre ++ { p with Outputs := fs₁ ++ (fs₂ ++ f₂ :: fs₃) } :: post).flatMap
          (pluginWrites rel)
        = (pre.flatMap (pluginWrites rel) ++ fs₁.flatMap (fileWrites rel))
          ++ (fs₂.flatMap (fileWrites rel)
            ++ (path.Base f₂, f₂)
              :: (fs₃.flatMap (fileWrites rel) ++ post.flatMap (pluginWrites rel))) := by
      rw [writes_remove rel pre post p fs₁ _ hm,
        List.flatMap_append, List.flatMap_cons, fileWrites_of_not_dir rel f₂ hd₂]
      simp
    have hread : (copyMappings [] ((pre ++ p :: post).flatMap (pluginWrites rel))).read
        (path.Base f₂) = some f₂ := by
      rw [hW]
      have : ∀ (A B C : GoMap) (x y : Str × Str),
          A ++ x :: (B ++ y :: C) = (A ++ x :: B) ++ y :: C := by
        intros; simp
      rw [this]
      exact read_copyMappings_last _ _ _ _ _ hnot
    refine ⟨_, _, mergeSources_eq workDir rel (pre ++ p :: post), ?_, ?_, ?_,
      ⟨_, _, mergeSources_eq workDir rel _, ?_⟩, ?_⟩
    · rw [hw]
      exact hread
    · rw [getElem?_entries rel pre post p fs₁ _ f₁ hm ho, fileEntry_of_not_dir rel f₁ hd₁, hb]
    · have ho' : p.Outputs = (fs₁ ++ f₁ :: fs₂) ++ f₂ :: fs₃ := by rw [ho]; simp
      have := getElem?_entries rel pre post p _ _ f₂ hm ho'
      rw [fileEntry_of_not_dir rel f₂ hd₂] at this
      have hidx : outputCount pre + (fs₁.length + 1 + fs₂.length)
          = outputCount pre + (fs₁ ++ f₁ :: fs₂).length := by
        simp only [List.length_append, List.length_cons]
        omega
      rw [hidx]
      exact this
    · intro k
      rw [hw, hW, hW']
      exact read_copyMappings_overwritten _ _ _ _ _ _ _ k
    · intro hall hne k
      rw [hw]
      refine no_trace rel _ ?_ f₁ f₂ hne (hb ▸ hread) k
      intro q hq
      rcases List.mem_append.mp hq with h | h
      · exact hall q (List.mem_append_left _ h)
      · rcases List.mem_cons.mp h with h | h
        · exact h ▸ hm
        · exact hall q (List.mem_append_right _ h)
  · intro pre mid post p₁ p₂ a₁ a₂ b₁ b₂ hm₁ hm₂ ho₁ ho₂ hfs hpost
    have hnot : path.Base f₂ ∉ GoMap.keys
        (b₂.flatMap (fileWrites rel) ++ post.flatMap (pluginWrites rel)) := by
      have h1 := not_mem_keys_fileWrites rel b₂ (path.Base f₂) hfs
      have h2 := not_mem_keys_flatMap rel post (path.Base f₂) hpost
      simp only [GoMap.keys, List.map_append, List.mem_append, not_or] at h1 h2 ⊢
      exact ⟨h1, h2⟩
    have hmid : (mid ++ p₂ :: post).flatMap (pluginWrites rel)
        = (mid.flatMap (pluginWrites rel) ++ b₁.flatMap (fileWrites rel))
          ++ (path.Base f₂, f₂)
            :: (b₂.flatMap (fileWrites rel) ++ post.flatMap (pluginWrites rel)) := by
      rw [writes_split rel mid post p₂ b₁ b₂ f₂ hm₂ ho₂, fileWrites_of_not_dir rel f₂ hd₂]
      simp
    have hW : (pre ++ p₁ :: (mid ++ p₂ :: post)).flatMap (pluginWrites rel)
        = (pre.flatMap (pluginWrites rel) ++ a₁.flatMap (fileWrites rel))
          ++ (path.Base f₂, f₁) :: ((a₂.flatMap (fileWrites rel)
              ++ (mid.flatMap (pluginWrites rel) ++ b₁.flatMap (fileWrites rel)))
            ++ (path.Base f₂, f₂)
              :: (b₂.flatMap (fileWrites rel) ++ post.flatMap (pluginWrites rel))) := by
      rw [writes_split rel pre _ p₁ a₁ a₂ f₁ hm₁ ho₁, fileWrites_of_not_dir rel f₁ hd₁, hb, hmid]
      simp
    have hW' : (pre ++ { p₁ with Outputs := a₁ ++ a₂ } :: (mid ++ p₂ :: post)).flatMap
          (pluginWrites rel)
        = (pre.flatMap (pluginWrites rel) ++ a₁.flatMap (fileWrites rel))
          ++ ((a₂.flatMap (fileWrites rel)
              ++ (mid.flatMap (pluginWrites rel) ++ b₁.flatMap (fileWrites rel)))
            ++ (path.Base f₂, f₂)
              :: (b₂.flatMap (fileWrites rel) ++ post.flatMap (pluginWrites rel))) := by
      rw [writes_remove rel pre _ p₁ a₁ a₂ hm₁, hmid]
      simp
    have hread : (copyMappings []
        ((pre ++ p₁ :: (mid ++ p₂ :: post)).flatMap (pluginWrites rel))).read
        (path.Base f₂) = some f₂ := by
      rw [hW]
      have : ∀ (A B C : GoMap) (x y : Str × Str),
          A ++ x :: (B ++ y :: C) = (A ++ x :: B) ++ y :: C := by
        intros; simp
      rw [this]
      exact read_copyMappings_last _ _ _ _ _ hnot
    refine ⟨_, _, mergeSources_eq workDir rel _, ?_, ?_, ?_,
      ⟨_, _, mergeSources_eq workDir rel _, ?_⟩, ?_⟩
    · rw [hw]
      exact hread
    · rw [getElem?_entries rel pre _ p₁ a₁ a₂ f₁ hm₁ ho₁, fileEntry_of_not_dir rel f₁ hd₁, hb]
    · have hl : pre ++ p₁ :: (mid ++ p₂ :: post) = (pre ++ p₁ :: mid) ++ p₂ :: post := by simp
      rw [hl, getElem?_entries rel _ post p₂ b₁ b₂ f₂ hm₂ ho₂, fileEntry_of_not_dir rel f₂ hd₂]
    · intro k
      rw [hw, hW, hW']
      exact read_copyMappings_overwritten _ _ _ _ _ _ _ k
    · intro hall hne k
      rw [hw]
      refine no_trace rel _ ?_ f₁ f₂ hne (hb ▸ hread) k
      intro q hq
      rcases List.mem_append.mp hq with h | h
      · exact hall q (List.mem_append_left _ h)
      · rcases List.mem_cons.mp h with h | h
        · exact h ▸ hm₁
        · rcases List.mem_append.mp h with h | h
          · exact hall q (List.mem_append_right _ (List.mem_append_left _ h))
          · rcases List.mem_cons.mp h with h | h
            · exact h ▸ hm₂
            · exact hall q (List.mem_append_right _ (List.mem_append_right _ h))

/-- C9, at the files `x/c.java` and `y/c.java` with the target directory
`foo/bar`, in one plugin and in two plugins. -/
theorem mergeSources_last_write_wins_witness :
    externalWorkspace [] = none ∧
    path.Base "x/c.java".toList = path.Base "y/c.java".toList ∧
    fileDir "foo/bar".toList "x/c.java".toList ≠ "foo/bar".toList ∧
    fileDir "foo/bar".toList "y/c.java".toList ≠ "foo/bar".toList ∧
    mergeSources [] "foo/bar".toList [mkPlugin "java" ["x/c.java", "y/c.java"] [] []]
      = some (["c.java".toList, "c.java".toList], [("c.java".toList, "y/c.java".toList)]) ∧
    (∃ outs m, mergeSources [] "foo/bar".toList
        [mkPlugin "java" ["x/c.java", "y/c.java"] [] []] = some (outs, m) ∧
      m.read (path.Base "y/c.java".toList) = some "y/c.java".toList) ∧
    (∃ outs m, mergeSources [] "foo/bar".toList
        [mkPlugin "java" ["x/c.java"] [] [], mkPlugin "go" ["y/c.java"] [] []] = some (outs, m) ∧
      m.read (path.Base "y/c.java".toList) = some "y/c.java".toList) :=
  ⟨by decide, by decide, by decide, by decide, by decide, by
    obtain ⟨outs, m, h1, h2, _⟩ :=
      (mergeSources_last_write_wins [] "foo/bar".toList "x/c.java".toList "y/c.java".toList
        (by decide) (by decide) (by decide) (by decide)).1 [] []
        (mkPlugin "java" ["x/c.java", "y/c.java"] [] []) [] [] []
        (by decide) (by decide) (by decide) (by decide)
    exact ⟨outs, m, h1, h2⟩, by
    obtain ⟨outs, m, h1, h2, _⟩ :=
      (mergeSources_last_write_wins [] "foo/bar".toList "x/c.java".toList "y/c.java".toList
        (by decide) (by decide) (by decide) (by decide)).2 [] [] []
        (mkPlugin "java" ["x/c.java"] [] []) (mkPlugin "go" ["y/c.java"] [] []) [] [] [] []
        (by decide) (by decide) (by decide) (by decide) (by decide) (by decide)
    exact ⟨outs, m, h1, h2⟩⟩

/-! ## The merged outputs -/

/-- C10: for every work directory, the merged outputs have exactly one entry
per output file, in plugin order and in file order inside a plugin: their
length is the sum of the lengths of the `Outputs` lists, they are related
entry by entry to the concatenation of the `Outputs` lists, each entry being
the file itself, the file with the target directory stripped or its basename,
and the entry at the position of the `j`-th file of the `i`-th plugin is
determined by that file (and whether its plugin has mappings). -/
theorem mergeSources_outputs_one_per_file (workDir rel : Str)
    (plugins : List PluginConfiguration) :
    ∃ outs m, mergeSources workDir rel plugins = some (outs, m) ∧
      outs.length = (plugins.map (fun p => p.Outputs.length)).sum ∧
      List.Forall₂
        (fun f e => e = f ∨ e = strings.TrimPrefix f (rel ++ ['/']) ∨ e = path.Base f)
        (plugins.flatMap (·.Outputs)) outs ∧
      ∀ (i j : Nat) (p : PluginConfiguration) (f : Str),
        plugins[i]? = some p → p.Outputs[j]? = some f →
        outs[((plugins.take i).map (fun q => q.Outputs.length)).sum + j]?
          = some (if p.Mappings.length > 0 then f
              else if fileDir rel f = rel then strings.TrimPrefix f (rel ++ ['/'])
              else path.Base f) := by
  refine ⟨_, _, mergeSources_eq workDir rel plugins, ?_, forall₂_entries rel plugins, ?_⟩
  · rw [length_flatMap_pluginEntries, outputCount_eq_sum]
  · intro i j p f hi hj
    obtain ⟨hp, _⟩ := eq_take_cons_drop plugins i p hi
    obtain ⟨hf, hlen⟩ := eq_take_cons_drop p.Outputs j f hj
    have hE : plugins.flatMap (pluginEntries rel)
        = (plugins.take i).flatMap (pluginEntries rel)
          ++ (pluginEntries rel p) ++ (plugins.drop (i + 1)).flatMap (pluginEntries rel) := by
      conv_lhs => rw [hp]
      simp [List.flatMap_append, List.flatMap_cons]
    rw [hE, pluginEntries_eq_map]
    conv_lhs => rw [hf]
    rw [List.map_append, List.map_cons]
    apply getElem?_middle
    rw [length_flatMap_pluginEntries, outputCount_eq_sum, List.length_map, hlen]

/-! ## Root packages -/

theorem splitDir_of_no_slash (f : Str) (hf : '/' ∉ f) : path.splitDir f = [] := by
  cases f with
  | nil => rfl
  | cons c cs =>
    simp only [List.mem_cons, not_or] at hf
    have hc : ¬ c = '/' := fun h => hf.1 h.symm
    simp [path.splitDir, hf.2, hc]

theorem Dir_of_no_slash (f : Str) (hf : '/' ∉ f) : path.Dir f = ['.'] := by
  rw [path.Dir, splitDir_of_no_slash f hf]
  rfl

theorem TrimPrefix_slash_of_no_slash (f : Str) (hf : '/' ∉ f) :
    strings.TrimPrefix f ['/'] = f := by
  cases f with
  | nil => rfl
  | cons c cs =>
    simp only [List.mem_cons, not_or] at hf
    have hc : ¬ c = '/' := fun h => hf.1 h.symm
    simp [strings.TrimPrefix, strings.HasPrefix, hc]

theorem writes_remove_in_dir (rel : Str) (pre post : List PluginConfiguration)
    (p : PluginConfiguration) (fs₁ fs₂ : List Str) (f : Str) (hm : p.Mappings = [])
    (ho : p.Outputs = fs₁ ++ f :: fs₂) (hd : fileDir rel f = rel) :
    (pre ++ { p with Outputs := fs₁ ++ fs₂ } :: post).flatMap (pluginWrites rel)
      = (pre ++ p :: post).flatMap (pluginWrites rel) := by
  rw [writes_remove rel pre post p fs₁ fs₂ hm, writes_split rel pre post p fs₁ fs₂ f hm ho,
    fileWrites_eq_nil_of_dir rel f hd, List.nil_append]

/-- C11: root-package equivalence.  For the empty target directory, a plugin
without mappings and an output file `f` of it that contains no slash, the
directory `path.Dir f` is `.`, which the merge takes for the target directory:
`f` is listed unchanged at its position in the merged outputs, processing `f`
leaves the mappings table as it is, and the merged table is the one obtained
without `f`. -/
theorem mergeSources_root_package (workDir : Str) (pre post : List PluginConfiguration)
    (p : PluginConfiguration) (fs₁ fs₂ : List Str) (f : Str) (hm : p.Mappings = [])
    (ho : p.Outputs = fs₁ ++ f :: fs₂) (hf : '/' ∉ f) :
    path.Dir f = ['.'] ∧ fileDir [] f = [] ∧
    ∃ outs m, mergeSources workDir [] (pre ++ p :: post) = some (outs, m) ∧
      outs[outputCount pre + fs₁.length]? = some f ∧
      (∀ acc, mergeFile [] acc f = (acc.1 ++ [f], acc.2)) ∧
      (∃ outs', mergeSources workDir [] (pre ++ { p with Outputs := fs₁ ++ fs₂ } :: post)
        = some (outs', m)) := by
  have hdir := Dir_of_no_slash f hf
  have hfd : fileDir [] f = [] := by simp [fileDir, hdir]
  have he : fileEntry [] f = f := by
    rw [fileEntry_of_dir [] f hfd]
    exact TrimPrefix_slash_of_no_slash f hf
  refine ⟨hdir, hfd, _, _, mergeSources_eq workDir [] (pre ++ p :: post), ?_, ?_, ?_⟩
  · rw [getElem?_entries [] pre post p fs₁ fs₂ f hm ho, he]
  · intro acc
    rw [mergeFile_eq, fileWrites_eq_nil_of_dir [] f hfd, copyMappings_nil, he]
  · refine ⟨(pre ++ { p with Outputs := fs₁ ++ fs₂ } :: post).flatMap (pluginEntries []), ?_⟩
    rw [mergeSources_eq, writes_remove_in_dir [] pre post p fs₁ fs₂ f hm ho hfd]

/-- C11, at a root package with the outputs `a.pb.go` and `gen/b.pb.go`. -/
theorem mergeSources_root_package_witness :
    (mkPlugin "go" ["a.pb.go", "gen/b.pb.go"] [] []).Mappings = [] ∧
    '/' ∉ "a.pb.go".toList ∧
    mergeSources [] [] [mkPlugin "go" ["a.pb.go", "gen/b.pb.go"] [] []]
      = some (["a.pb.go".toList, "b.pb.go".toList],
          [("b.pb.go".toList, "gen/b.pb.go".toList)]) ∧
    ∃ outs m, mergeSources [] [] [mkPlugin "go" ["a.pb.go", "gen/b.pb.go"] [] []]
        = some (outs, m) ∧
      outs[0]? = some "a.pb.go".toList :=
  ⟨by decide, by decide, by decide, by
    obtain ⟨_, _, outs, m, h1, h2, _⟩ :=
      mergeSources_root_package [] [] [] (mkPlugin "go" ["a.pb.go", "gen/b.pb.go"] [] [])
        [] ["gen/b.pb.go".toList] "a.pb.go".toList (by decide) (by decide) (by decide)
    exact ⟨outs, m, h1, h2⟩⟩

/-! ## Plugins that contribute nothing -/

theorem pluginEntries_of_no_outputs (rel : Str) (q : PluginConfiguration)
    (hO : q.Outputs = []) : pluginEntries rel q = [] := by
  unfold pluginEntries
  split <;> simp [hO]

theorem pluginWrites_of_nothing (rel : Str) (q : PluginConfiguration)
    (hO : q.Outputs = []) (hM : q.Mappings = []) : pluginWrites rel q = [] := by
  rw [pluginWrites_of_no_mappings rel q hM, hO]
  rfl

theorem mergeImports_insert (pre post : List PluginConfiguration) (q : PluginConfiguration)
    (hI : q.Imports = []) : mergeImports (pre ++ q :: post) = mergeImports (pre ++ post) := by
  unfold mergeImports
  rw [foldl_append_imports, foldl_append_imports]
  simp [List.flatMap_append, List.flatMap_cons, hI]

/-- C12, as stated, fails: a plugin without outputs and without imports that
has an explicit mappings table adds its entries to the merged mappings. -/
theorem mergeSources_empty_plugin_counterexample :
    (mkPlugin "x" [] [] [("a.go", "gen/a.go")]).Outputs = [] ∧
    (mkPlugin "x" [] [] [("a.go", "gen/a.go")]).Imports = [] ∧
    mergeSources [] [] [mkPlugin "java" ["b.java"] [] []]
      = some (["b.java".toList], []) ∧
    mergeSources [] []
        [mkPlugin "java" ["b.java"] [] [], mkPlugin "x" [] [] [("a.go", "gen/a.go")]]
      = some (["b.java".toList], [("a.go".toList, "gen/a.go".toList)]) ∧
    ([] : GoMap) ≠ [("a.go".toList, "gen/a.go".toList)] := by
  decide

/-- C12, amended: inserting at any position of a plugin list a plugin `q`
whose outputs and imports are empty leaves the merged outputs and the merged
imports unchanged, and leaves the merged mappings table unchanged when the
mappings of `q` are empty as well. -/
theorem mergeSources_empty_plugin (workDir rel : Str) (pre post : List PluginConfiguration)
    (q : PluginConfiguration) (hO : q.Outputs = []) (hI : q.Imports = []) :
    (∃ outs m m', mergeSources workDir rel (pre ++ post) = some (outs, m) ∧
      mergeSources workDir rel (pre ++ q :: post) = some (outs, m') ∧
      (q.Mappings = [] → m' = m)) ∧
    mergeImports (pre ++ q :: post) = mergeImports (pre ++ post) := by
  have h1 := mergeSources_eq workDir rel (pre ++ post)
  have h2 := mergeSources_eq workDir rel (pre ++ q :: post)
  have he : (pre ++ q :: post).flatMap (pluginEntries rel)
      = (pre ++ post).flatMap (pluginEntries rel) := by
    simp only [List.flatMap_append, List.flatMap_cons, pluginEntries_of_no_outputs rel q hO,
      List.nil_append]
  rw [he] at h2
  refine ⟨⟨_, _, _, h1, h2, ?_⟩, mergeImports_insert pre post q hI⟩
  intro hM
  simp only [List.flatMap_append, List.flatMap_cons, pluginWrites_of_nothing rel q hO hM,
    List.nil_append]

/-- C12, amended, at an empty plugin inserted between two plugins, under an
external work directory. -/
theorem mergeSources_empty_plugin_witness :
    (mkPlugin "x" [] [] []).Outputs = [] ∧ (mkPlugin "x" [] [] []).Imports = [] ∧
    (∃ outs m, mergeSources "/tmp/external/ws".toList "foo".toList
          [mkPlugin "go" ["foo/a.go"] ["b"] [], mkPlugin "java" ["bar/c.java"] ["a"] []]
        = some (outs, m) ∧
      mergeSources "/tmp/external/ws".toList "foo".toList
          [mkPlugin "go" ["foo/a.go"] ["b"] [], mkPlugin "x" [] [] [],
           mkPlugin "java" ["bar/c.java"] ["a"] []]
        = some (outs, m)) ∧
    mergeImports [mkPlugin "go" ["foo/a.go"] ["b"] [], mkPlugin "x" [] [] [],
        mkPlugin "java" ["bar/c.java"] ["a"] []]
      = mergeImports [mkPlugin "go" ["foo/a.go"] ["b"] [],
          mkPlugin "java" ["bar/c.java"] ["a"] []] :=
  ⟨by decide, by decide, by
    obtain ⟨⟨outs, m, m', h1, h2, h3⟩, _⟩ :=
      mergeSources_empty_plugin "/tmp/external/ws".toList "foo".toList
        [mkPlugin "go" ["foo/a.go"] ["b"] []] [mkPlugin "java" ["bar/c.java"] ["a"] []]
        (mkPlugin "x" [] [] []) (by decide) (by decide)
    have hm : m' = m := h3 (by decide)
    subst hm
    exact ⟨outs, m', h1, h2⟩,
   (mergeSources_empty_plugin "/tmp/external/ws".toList "foo".toList
        [mkPlugin "go" ["foo/a.go"] ["b"] []] [mkPlugin "java" ["bar/c.java"] ["a"] []]
        (mkPlugin "x" [] [] []) (by decide) (by decide)).2⟩

/-! ## Empty plugin lists, the record, and the work directory -/

/-- C13: for the empty plugin list, whatever the work directory (also one
ending in `external/<ws>`) and the target directory, `mergeSources` returns
the empty outputs and the empty mappings table, and `mergeImports` returns the
empty list. -/
theorem mergeSources_nil (workDir rel : Str) :
    mergeSources workDir rel [] = some ([], []) ∧ mergeImports [] = [] ∧
    mergeSources "/tmp/_x/hash/external/com_google_protobuf".toList "foo/bar".toList []
      = some ([], []) := by
  refine ⟨?_, by decide, by decide⟩
  rw [mergeSources_eq]
  cases externalWorkspace workDir <;> rfl

/-- C14: `newProtocConfiguration` returns a record whose `LanguageConfig`,
`Rel`, `Prefix`, `Library` and `Plugins` are the arguments, whose `Outputs` and
`Mappings` are the pair returned by `mergeSources workDir rel plugins`, and
whose `Imports` is `mergeImports plugins`. -/
theorem newProtocConfiguration_fields {LC PL : Type} (lc : LC) (workDir rel pfx : Str)
    (lib : PL) (plugins : List PluginConfiguration) :
    ∃ c, newProtocConfiguration lc workDir rel pfx lib plugins = some c ∧
      c.LanguageConfig = lc ∧ c.Rel = rel ∧ c.Prefix = pfx ∧ c.Library = lib ∧
      c.Plugins = plugins ∧
      mergeSources workDir rel plugins = some (c.Outputs, c.Mappings) ∧
      c.Imports = mergeImports plugins := by
  obtain ⟨outs, m, hs, hc⟩ := newProtocConfiguration_eq lc workDir rel pfx lib plugins
  exact ⟨_, hc, rfl, rfl, rfl, rfl, rfl, hs, rfl⟩

theorem keys_rewritten (w : Option Str) (m : GoMap) :
    GoMap.keys
        (match w with
        | none => m
        | some ws => m.map (fun kv => (kv.1, path.Join ["external".toList, ws, kv.2])))
      = GoMap.keys m := by
  cases w with
  | none => rfl
  | some ws => exact GoMap.keys_map_values (fun v => path.Join ["external".toList, ws, v]) m

theorem mem_keys_iff_read_isSome (m : GoMap) (k : Str) :
    k ∈ GoMap.keys m ↔ (m.read k).isSome = true := by
  rw [← Option.ne_none_iff_isSome, ne_eq, GoMap.read_eq_none_iff, not_not]

/-- C16: the work directory influences only the mapping values: for two work
directories the merge returns the same outputs and mappings tables with the
same keys; a key is present for the one exactly when it is for the other. -/
theorem mergeSources_workDir_only_values (w₁ w₂ rel : Str)
    (plugins : List PluginConfiguration) :
    ∃ outs m₁ m₂, mergeSources w₁ rel plugins = some (outs, m₁) ∧
      mergeSources w₂ rel plugins = some (outs, m₂) ∧
      GoMap.keys m₁ = GoMap.keys m₂ ∧
      (∀ k, (m₁.read k).isSome = (m₂.read k).isSome) := by
  have hk : GoMap.keys
      (match externalWorkspace w₁ with
        | none => copyMappings [] (plugins.flatMap (pluginWrites rel))
        | some ws => (copyMappings [] (plugins.flatMap (pluginWrites rel))).map
            (fun kv => (kv.1, path.Join ["external".toList, ws, kv.2])))
      = GoMap.keys
      (match externalWorkspace w₂ with
        | none => copyMappings [] (plugins.flatMap (pluginWrites rel))
        | some ws => (copyMappings [] (plugins.flatMap (pluginWrites rel))).map
            (fun kv => (kv.1, path.Join ["external".toList, ws, kv.2]))) := by
    rw [keys_rewritten, keys_rewritten]
  refine ⟨_, _, _, mergeSources_eq w₁ rel plugins, mergeSources_eq w₂ rel plugins, hk, ?_⟩
  intro k
  rw [Bool.eq_iff_iff, ← mem_keys_iff_read_isSome, ← mem_keys_iff_read_isSome, hk]

theorem Split_length_pos (s : Str) : 1 ≤ (strings.Split s).length := by
  cases s with
  | nil => simp [strings.Split]
  | cons c cs =>
    unfold strings.Split
    split
    · simp
    · split <;> simp

/-- C17: `mergeSources` is total.  The split of the work directory has at least
one segment, the segments `parts[n-2]` and `parts[n-1]` exist whenever the
segment count `n` is at least 2, which is the only case in which they are
read, and the merge returns a result for every input, among them the empty
work directory and the work directories `/`, `external`, `external/` and `tmp`
(a single segment). -/
theorem mergeSources_total (workDir rel : Str) (plugins : List PluginConfiguration) :
    (∃ outs m, mergeSources workDir rel plugins = some (outs, m)) ∧
    1 ≤ (strings.Split workDir).length ∧
    (2 ≤ (strings.Split workDir).length →
      ∃ seg ws, (strings.Split workDir)[(strings.Split workDir).length - 2]? = some seg ∧
        (strings.Split workDir)[(strings.Split workDir).length - 1]? = some ws) ∧
    mergeSources "".toList "foo/bar".toList [mkPlugin "java" ["foo/other/c.java"] [] []]
      = some (["c.java".toList], [("c.java".toList, "foo/other/c.java".toList)]) ∧
    mergeSources "/".toList "foo/bar".toList [mkPlugin "java" ["foo/other/c.java"] [] []]
      = some (["c.java".toList], [("c.java".toList, "foo/other/c.java".toList)]) ∧
    mergeSources "external".toList "foo/bar".toList [mkPlugin "java" ["foo/other/c.java"] [] []]
      = some (["c.java".toList], [("c.java".toList, "foo/other/c.java".toList)]) ∧
    mergeSources "external/".toList "foo/bar".toList
        [mkPlugin "java" ["foo/other/c.java"] [] []]
      = some (["c.java".toList], [("c.java".toList, "external/foo/other/c.java".toList)]) ∧
    mergeSources "tmp".toList "foo/bar".toList [mkPlugin "java" ["foo/other/c.java"] [] []]
      = some (["c.java".toList], [("c.java".toList, "foo/other/c.java".toList)]) := by
  refine ⟨⟨_, _, mergeSources_eq workDir rel plugins⟩, Split_length_pos workDir, ?_,
    by decide, by decide, by decide, by decide, by decide⟩
  intro h
  exact ⟨_, _, List.getElem?_eq_getElem (by omega), List.getElem?_eq_getElem (by omega)⟩

/-! ## The keys of the merged mappings -/

theorem all_slash_of_stripSlashes_nil (l : List Char) (h : path.stripSlashes l = []) :
    ∀ c ∈ l, c = '/' := by
  induction l with
  | nil => simp
  | cons d ds ih =>
    by_cases hd : d = '/'
    · simp only [path.stripSlashes, hd, if_true] at h
      intro c hc
      rcases List.mem_cons.mp hc with rfl | hc
      · exact hd
      · exact ih h c hc
    · simp [path.stripSlashes, hd] at h

/-- A basename contains no slash, except that the basename of a path made of
slashes only is `/`. -/
theorem Base_cases (f : Str) :
    '/' ∉ path.Base f ∨ (path.Base f = ['/'] ∧ f ≠ [] ∧ ∀ c ∈ f, c = '/') := by
  unfold path.Base
  by_cases hf : f = []
  · left
    simp [hf]
  · simp only [hf, if_false]
    by_cases hs : path.stripSlashes f.reverse = []
    · right
      refine ⟨by simp [hs], hf, ?_⟩
      intro c hc
      exact all_slash_of_stripSlashes_nil _ hs c (List.mem_reverse.mpr hc)
    · left
      simp only [hs, if_false, List.mem_reverse]
      intro hmem
      have := List.mem_takeWhile_imp hmem
      simp at this

theorem mem_keys_writes (rel : Str) (plugins : List PluginConfiguration) (k : Str)
    (h : k ∈ GoMap.keys (plugins.flatMap (pluginWrites rel))) :
    (∃ p ∈ plugins, p.Mappings ≠ [] ∧ k ∈ GoMap.keys p.Mappings) ∨
    (∃ p ∈ plugins, p.Mappings = [] ∧
      ∃ f ∈ p.Outputs, fileDir rel f ≠ rel ∧ k = path.Base f) := by
  simp only [GoMap.keys, List.mem_map, List.mem_flatMap] at h
  obtain ⟨⟨a, b⟩, ⟨p, hp, hab⟩, rfl⟩ := h
  by_cases hm : p.Mappings = []
  · right
    rw [pluginWrites_of_no_mappings rel p hm, List.mem_flatMap] at hab
    obtain ⟨f, hf, hfw⟩ := hab
    by_cases hd : fileDir rel f = rel
    · simp [fileWrites, hd] at hfw
    · rw [fileWrites_of_not_dir rel f hd, List.mem_singleton, Prod.mk.injEq] at hfw
      exact ⟨p, hp, hm, f, hf, hd, hfw.1⟩
  · left
    rw [pluginWrites_of_mappings rel p hm] at hab
    exact ⟨p, hp, hm, List.mem_map.mpr ⟨(a, b), hab, rfl⟩⟩

theorem keys_mergedWrites (rel : Str) (plugins : List PluginConfiguration) (k : Str) :
    k ∈ GoMap.keys (copyMappings [] (plugins.flatMap (pluginWrites rel))) ↔
      k ∈ GoMap.keys (plugins.flatMap (pluginWrites rel)) := by
  rw [mem_keys_copyMappings]
  simp [GoMap.keys]

/-- C15, as stated, fails: a key copied from a plugin's explicit mappings may
contain a slash, and the basename of the output file `/` is `/`. -/
theorem mergeSources_keys_counterexample :
    mergeSources [] []
        [mkPlugin "go" ["gen/a.go"] [] [("gen/a.go", "out/gen/a.go")]]
      = some (["gen/a.go".toList], [("gen/a.go".toList, "out/gen/a.go".toList)]) ∧
    '/' ∈ "gen/a.go".toList ∧
    mergeSources [] "foo".toList [mkPlugin "java" ["/"] [] []]
      = some (["/".toList], [("/".toList, "/".toList)]) ∧
    '/' ∈ "/".toList := by
  decide

/-- C15, amended: every key of the merged mappings is either a key of the
explicit mappings of one of the plugins, copied as it is, or the basename
`path.Base f` of an output file `f` of a plugin without explicit mappings
whose directory differs from the target directory; such a basename contains no
slash unless `f` consists of slashes only, and then it is `/`.  Hence no key
contains a slash when no plugin has explicit mappings and no output file
consists of slashes only. -/
theorem mergeSources_keys (workDir rel : Str) (plugins : List PluginConfiguration) :
    ∃ outs m, mergeSources workDir rel plugins = some (outs, m) ∧
      (∀ k ∈ GoMap.keys m,
        (∃ p ∈ plugins, p.Mappings ≠ [] ∧ k ∈ GoMap.keys p.Mappings) ∨
        (∃ p ∈ plugins, p.Mappings = [] ∧ ∃ f ∈ p.Outputs, fileDir rel f ≠ rel ∧
          k = path.Base f ∧ ('/' ∉ k ∨ (k = ['/'] ∧ f ≠ [] ∧ ∀ c ∈ f, c = '/')))) ∧
      ((∀ p ∈ plugins, p.Mappings = [] ∧ ∀ f ∈ p.Outputs, f = [] ∨ ∃ c ∈ f, c ≠ '/') →
        ∀ k ∈ GoMap.keys m, '/' ∉ k) := by
  have hkeys : ∀ k ∈ GoMap.keys
      (match externalWorkspace workDir with
        | none => copyMappings [] (plugins.flatMap (pluginWrites rel))
        | some ws => (copyMappings [] (plugins.flatMap (pluginWrites rel))).map
            (fun kv => (kv.1, path.Join ["external".toList, ws, kv.2]))),
      (∃ p ∈ plugins, p.Mappings ≠ [] ∧ k ∈ GoMap.keys p.Mappings) ∨
      (∃ p ∈ plugins, p.Mappings = [] ∧
        ∃ f ∈ p.Outputs, fileDir rel f ≠ rel ∧ k = path.Base f) := by
    intro k hk
    rw [keys_rewritten, keys_mergedWrites] at hk
    exact mem_keys_writes rel plugins k hk
  refine ⟨_, _, mergeSources_eq workDir rel plugins, ?_, ?_⟩
  · intro k hk
    rcases hkeys k hk with h | ⟨p, hp, hm, f, hf, hd, hb⟩
    · exact Or.inl h
    · refine Or.inr ⟨p, hp, hm, f, hf, hd, hb, ?_⟩
      rw [hb]
      exact Base_cases f
  · intro hall k hk
    rcases hkeys k hk with ⟨p, hp, hm, _⟩ | ⟨p, hp, _, f, hf, _, hb⟩
    · exact absurd (hall p hp).1 hm
    · rw [hb]
      rcases Base_cases f with h | ⟨_, hne, hsl⟩
      · exact h
      · rcases (hall p hp).2 f hf with h | ⟨c, hc, hcs⟩
        · exact absurd h hne
        · exact absurd (hsl c hc) hcs

/-! ## Concatenation of plugin lists -/

theorem read_copyMappings_orElse (m l : GoMap) (k : Str) :
    (copyMappings m l).read k
      = ((copyMappings [] l).read k).orElse (fun _ => m.read k) := by
  induction l generalizing m with
  | nil => simp [copyMappings_nil, GoMap.read]
  | cons e l ih =>
    obtain ⟨a, b⟩ := e
    rw [copyMappings_cons, copyMappings_cons, ih (m.write a b), ih (GoMap.write [] a b)]
    cases h : (copyMappings [] l).read k with
    | some v => rfl
    | none =>
      show (m.write a b).read k = ((GoMap.write [] a b).read k).orElse (fun _ => m.read k)
      rw [GoMap.read_write, GoMap.read_write]
      by_cases hk : a = k <;> simp [hk, GoMap.read]

theorem read_rewritten (w : Option Str) (m : GoMap) (k : Str) :
    GoMap.read
        (match w with
        | none => m
        | some ws => m.map (fun kv => (kv.1, path.Join ["external".toList, ws, kv.2]))) k
      = match w with
        | none => m.read k
        | some ws => (m.read k).map (fun v => path.Join ["external".toList, ws, v]) := by
  cases w with
  | none => rfl
  | some ws => exact GoMap.read_map_values (fun v => path.Join ["external".toList, ws, v]) m k

/-- C18: the merge is compositional over the concatenation of plugin lists.
For every work directory, with or without external rewrite, the merge of
`P ++ Q` returns the outputs of `P` followed by those of `Q`, and its mappings
table is the table of `P` overridden key by key by the table of `Q`: a key of
the table of `Q` has the value it has there, any other key the value it has in
the table of `P`, and the keys are those of the two tables. -/
theorem mergeSources_append (workDir rel : Str) (P Q : List PluginConfiguration) :
    ∃ outsP mP outsQ mQ m, mergeSources workDir rel P = some (outsP, mP) ∧
      mergeSources workDir rel Q = some (outsQ, mQ) ∧
      mergeSources workDir rel (P ++ Q) = some (outsP ++ outsQ, m) ∧
      (∀ k, m.read k = (mQ.read k).orElse (fun _ => mP.read k)) ∧
      (∀ k, k ∈ GoMap.keys m ↔ k ∈ GoMap.keys mP ∨ k ∈ GoMap.keys mQ) := by
  have hPQ := mergeSources_eq workDir rel (P ++ Q)
  rw [List.flatMap_append] at hPQ
  refine ⟨_, _, _, _, _, mergeSources_eq workDir rel P, mergeSources_eq workDir rel Q, hPQ,
    ?_, ?_⟩
  · intro k
    rw [read_rewritten, read_rewritten, read_rewritten, List.flatMap_append,
      copyMappings_append, read_copyMappings_orElse]
    cases externalWorkspace workDir with
    | none => rfl
    | some ws =>
      simp only
      cases (copyMappings [] (Q.flatMap (pluginWrites rel))).read k <;> rfl
  · intro k
    rw [keys_rewritten, keys_rewritten, keys_rewritten, List.flatMap_append,
      copyMappings_append, mem_keys_copyMappings, keys_mergedWrites, keys_mergedWrites]

/-! ## Keys and outputs without explicit mappings -/

theorem Clean_ne_nil (p : Str) : path.Clean p ≠ [] := by
  cases p with
  | nil => simp [path.Clean]
  | cons c r1 =>
    simp only [path.Clean]
    generalize (if decide (c = '/') = true then path.cleanLoop (decide (c = '/')) r1.length r1
      ['/'] 1 else path.cleanLoop (decide (c = '/')) (c :: r1).length (c :: r1) [] 0) = out
    by_cases h : out.length = 0
    · simp [h]
    · have hne : out ≠ [] := fun e => h (by rw [e]; rfl)
      simp [h, hne]

theorem fileDir_eq_cases (rel f : Str) (h : fileDir rel f = rel) :
    path.Dir f = rel ∨ (rel = [] ∧ path.Dir f = ['.']) := by
  unfold fileDir at h
  by_cases hc : path.Dir f = ['.'] ∧ rel = []
  · exact Or.inr ⟨hc.2, hc.1⟩
  · rw [if_neg hc] at h
    exact Or.inl h

theorem base_mem_keys_writes (rel : Str) (plugins : List PluginConfiguration)
    (p : PluginConfiguration) (hp : p ∈ plugins) (hm : p.Mappings = []) (f : Str)
    (hf : f ∈ p.Outputs) (hd : fileDir rel f ≠ rel) :
    path.Base f ∈ GoMap.keys (plugins.flatMap (pluginWrites rel)) := by
  simp only [GoMap.keys, List.mem_map, List.mem_flatMap]
  refine ⟨(path.Base f, f), ⟨p, hp, ?_⟩, rfl⟩
  rw [pluginWrites_of_no_mappings rel p hm, List.mem_flatMap]
  exact ⟨f, hf, by rw [fileWrites_of_not_dir rel f hd]; exact List.mem_singleton.mpr rfl⟩

theorem forall₂_entries_not_keys (rel : Str) (K : List Str) (plugins : List PluginConfiguration)
    (hK : ∀ p ∈ plugins, p.Mappings = [] ∧
      ∀ f ∈ p.Outputs, fileDir rel f ≠ rel → path.Base f ∈ K) :
    List.Forall₂
      (fun f e => e ∉ K → fileDir rel f = rel ∧ e = strings.TrimPrefix f (rel ++ ['/']))
      (plugins.flatMap (·.Outputs)) (plugins.flatMap (pluginEntries rel)) := by
  induction plugins with
  | nil => exact List.Forall₂.nil
  | cons p ps ih =>
    rw [List.flatMap_cons, List.flatMap_cons]
    refine List.rel_append ?_ (ih (fun q hq => hK q (List.mem_cons_of_mem _ hq)))
    obtain ⟨hm, hout⟩ := hK p (List.mem_cons_self _ _)
    rw [pluginEntries_of_no_mappings rel p hm, List.forall₂_map_right_iff, List.forall₂_same]
    intro f hf he
    by_cases hd : fileDir rel f = rel
    · exact ⟨hd, fileEntry_of_dir rel f hd⟩
    · rw [fileEntry_of_not_dir rel f hd] at he
      exact absurd (hout f hf hd) he

/-- C19: when no plugin supplies explicit mappings, whatever the work
directory, every key of the merged mappings occurs as an entry of the merged
outputs, and an entry of the merged outputs that is not a key of the mappings
stands at the position of a file whose directory is the target directory for
the merge (`path.Dir` of the file is the target directory, or is `.` when the
target directory is empty) and is that file with the target directory
stripped. -/
theorem mergeSources_keys_in_outputs (workDir rel : Str) (plugins : List PluginConfiguration)
    (hall : ∀ p ∈ plugins, p.Mappings = []) :
    ∃ outs m, mergeSources workDir rel plugins = some (outs, m) ∧
      (∀ k ∈ GoMap.keys m, k ∈ outs) ∧
      List.Forall₂
        (fun f e => e ∉ GoMap.keys m →
          fileDir rel f = rel ∧ (path.Dir f = rel ∨ (rel = [] ∧ path.Dir f = ['.'])) ∧
          e = strings.TrimPrefix f (rel ++ ['/']))
        (plugins.flatMap (·.Outputs)) outs := by
  refine ⟨_, _, mergeSources_eq workDir rel plugins, ?_, ?_⟩
  · intro k hk
    rw [keys_rewritten, keys_mergedWrites] at hk
    rcases mem_keys_writes rel plugins k hk with ⟨p, hp, hm, _⟩ | ⟨p, hp, hm, f, hf, hd, hb⟩
    · exact absurd (hall p hp) hm
    · rw [List.mem_flatMap]
      refine ⟨p, hp, ?_⟩
      rw [pluginEntries_of_no_mappings rel p hm, List.mem_map]
      exact ⟨f, hf, by rw [fileEntry_of_not_dir rel f hd, hb]⟩
  · have h := forall₂_entries_not_keys rel
      (GoMap.keys (copyMappings [] (plugins.flatMap (pluginWrites rel)))) plugins
      (fun p hp => ⟨hall p hp, fun f hf hd =>
        (keys_mergedWrites rel plugins _).mpr
          (base_mem_keys_writes rel plugins p hp (hall p hp) f hf hd)⟩)
    rw [keys_rewritten]
    refine h.imp ?_
    intro f e hfe hne
    obtain ⟨h1, h2⟩ := hfe hne
    exact ⟨h1, fileDir_eq_cases rel f h1, h2⟩

/-- C19, at a plugin list with one file inside and one file outside the target
directory. -/
theorem mergeSources_keys_in_outputs_witness :
    (∀ p ∈ [mkPlugin "java" ["foo/bar/a.java", "foo/other/c.java"] [] []], p.Mappings = []) ∧
    mergeSources [] "foo/bar".toList
        [mkPlugin "java" ["foo/bar/a.java", "foo/other/c.java"] [] []]
      = some (["a.java".toList, "c.java".toList],
          [("c.java".toList, "foo/other/c.java".toList)]) ∧
    ∃ outs m, mergeSources [] "foo/bar".toList
        [mkPlugin "java" ["foo/bar/a.java", "foo/other/c.java"] [] []] = some (outs, m) ∧
      ∀ k ∈ GoMap.keys m, k ∈ outs :=
  ⟨by decide, by decide, by
    obtain ⟨outs, m, h1, h2, _⟩ :=
      mergeSources_keys_in_outputs [] "foo/bar".toList
        [mkPlugin "java" ["foo/bar/a.java", "foo/other/c.java"] [] []] (by decide)
    exact ⟨outs, m, h1, h2⟩⟩

/-! ## The import merger and the order of the plugins -/

theorem Strings_eq_of_perm (l₁ l₂ : List Str) (h : List.Perm l₁ l₂) :
    sort.Strings l₁ = sort.Strings l₂ := by
  unfold sort.Strings
  apply List.eq_of_perm_of_sorted (r := (· ≤ ·))
  · exact ((List.perm_insertionSort _ l₁).trans h).trans (List.perm_insertionSort _ l₂).symm
  · exact List.sorted_insertionSort _ _
  · exact List.sorted_insertionSort _ _

theorem perm_flatMap_imports (P Q : List PluginConfiguration)
    (h : List.Forall₂ (fun p q => List.Perm p.Imports q.Imports) P Q) :
    List.Perm (P.flatMap (·.Imports)) (Q.flatMap (·.Imports)) := by
  induction h with
  | nil => exact List.Perm.refl _
  | cons hpq _ ih =>
    rw [List.flatMap_cons, List.flatMap_cons]
    exact List.Perm.append hpq ih

theorem mergeImports_eq_of_perm (P Q : List PluginConfiguration)
    (h : List.Perm (P.flatMap (·.Imports)) (Q.flatMap (·.Imports))) :
    mergeImports P = mergeImports Q := by
  unfold mergeImports
  rw [foldl_append_imports, foldl_append_imports, List.nil_append, List.nil_append]
  exact Strings_eq_of_perm _ _ h

/-- C20: the merged imports do not depend on the order of the plugins nor on
the order of the imports inside a plugin: when `P'` is a permutation of `P` and
`P''` is `P'` with the imports of each plugin reordered, `mergeImports P''` and
`mergeImports P` are the same list. -/
theorem mergeImports_order_independent (P P' P'' : List PluginConfiguration)
    (hperm : List.Perm P P')
    (hre : List.Forall₂ (fun p q => List.Perm p.Imports q.Imports) P' P'') :
    mergeImports P'' = mergeImports P := by
  apply mergeImports_eq_of_perm
  exact ((hperm.flatMap_right (·.Imports)).trans (perm_flatMap_imports P' P'' hre)).symm

/-- C20, at two plugins swapped and the imports of one of them reversed. -/
theorem mergeImports_order_independent_witness :
    List.Perm [mkPlugin "go" [] ["b", "a"] [], mkPlugin "java" [] ["c"] []]
      [mkPlugin "java" [] ["c"] [], mkPlugin "go" [] ["b", "a"] []] ∧
    mergeImports [mkPlugin "java" [] ["c"] [], mkPlugin "go" [] ["a", "b"] []]
      = mergeImports [mkPlugin "go" [] ["b", "a"] [], mkPlugin "java" [] ["c"] []] ∧
    mergeImports [mkPlugin "java" [] ["c"] [], mkPlugin "go" [] ["a", "b"] []]
      = ["a".toList, "b".toList, "c".toList] :=
  ⟨List.Perm.swap _ _ _,
   mergeImports_order_independent
     [mkPlugin "go" [] ["b", "a"] [], mkPlugin "java" [] ["c"] []]
     [mkPlugin "java" [] ["c"] [], mkPlugin "go" [] ["b", "a"] []]
     [mkPlugin "java" [] ["c"] [], mkPlugin "go" [] ["a", "b"] []]
     (List.Perm.swap _ _ _)
     (List.Forall₂.cons (List.Perm.refl _)
       (List.Forall₂.cons (List.Perm.swap _ _ _) List.Forall₂.nil)),
   by decide⟩
